import Mathlib

/-!
Verification of the kraken2 feature-selection module (`q2_moshpit/kraken2/select.py`).

The Python functions are shallowly embedded as total Lean functions:

* report rows become the structure `KRow` (the coverage percentage is modelled
  as a rational number, standing in for the float of the source);
* `skbio.TreeNode` values become the inductive type `TN` (name, branch length,
  the `is_actual_tip` attribute, and the ordered list of children);
* code that can raise (`IndexError` from `stack[-1]` / `children[0]` /
  `trees[0]`, `skbio.tree.MissingNodeError`, `DuplicateNodeError`,
  `UnboundLocalError`, `ValueError` from `split`) is modelled with `Option`,
  where `none` stands for the exception escaping the function.

The builder `_kraken_to_ncbi_tree` mutates nodes in place in Python; here the
stack holds nodes under construction and a popped node is appended to the entry
below it, which yields the same tree because in Python a node's children list
is only ever extended at the end.  `_combine_ncbi_trees` detaches grafted
subtrees from the donor tree in Python; a donor node that loses a descendant
this way necessarily has its name already present in the accumulating tree
(its name was found during the walk that grafted the descendant), so it is
never itself appended afterwards and the detachment is unobservable — the
model therefore reads the donor tree immutably.
-/

/-- A parsed report row: rank code, label (indentation-carrying name),
stringified taxon id and coverage percentage. -/
structure KRow where
  rank : String
  name : String
  taxid : String
  cov : ℚ
deriving Repr, DecidableEq

/-- Shallow embedding of `skbio.TreeNode`: display name, branch length,
the `is_actual_tip` attribute and the ordered children. -/
inductive TN : Type where
  | mk : Option String → Option Nat → Bool → List TN → TN
deriving Repr

namespace TN

def name : TN → Option String
  | .mk n _ _ _ => n

def length : TN → Option Nat
  | .mk _ l _ _ => l

def tip : TN → Bool
  | .mk _ _ f _ => f

def children : TN → List TN
  | .mk _ _ _ cs => cs

/-- `parent.append(node)` (the part visible on the parent). -/
def appendChild : TN → TN → TN
  | .mk n l f cs, c => .mk n l f (cs ++ [c])

/-- Set this node's `is_actual_tip` attribute to `True`. -/
def setTip : TN → TN
  | .mk n l _ cs => .mk n l true cs

/-- `node.children[0].is_actual_tip = True`; `none` models the `IndexError`
on an empty children list. -/
def markFirst : TN → Option TN
  | .mk _ _ _ [] => none
  | .mk n l f (c :: cs) => some (.mk n l f (c.setTip :: cs))

end TN

/-- `str.lower()`, over the character list so that it evaluates by `rfl`. -/
def lowerStr (s : String) : String :=
  String.mk (s.data.map Char.toLower)

/-- The whitespace characters stripped by `str.strip()`. -/
def wsChar (c : Char) : Bool :=
  c = ' ' || c = '\t' || c = '\n' || c = '\r'

/-- `str.strip()`: drop whitespace from both ends. -/
def trimStr (s : String) : String :=
  String.mk ((s.data.dropWhile wsChar).reverse.dropWhile wsChar).reverse

/-- `_get_indentation`: leading-space count of the label, integer-divided
by the 2-space indent unit. -/
def indentation (s : String) : Nat :=
  (s.data.takeWhile (· = ' ')).length / 2

/-- The rank filter inside `_kraken_to_ncbi_tree`: a row is processed unless
`r in ('U', 'R') or (len(r) > 1 and not r.startswith('S'))`. -/
def rankKept (r : String) : Bool :=
  !(r = "U" || r = "R" || (r.data.length > 1 && !(r.data.head? = some 'S')))

/-- The identifier child built for a row: name `str(ncbi_tax_id)`, length 0. -/
def idNodeTN (otu : String) (b : Bool) : TN :=
  .mk (some otu) (some 0) b []

/-- The rank node built for a row: name `f"{r.lower()}__{label.strip()}"`,
length 1, with the identifier child appended first. -/
def rankNodeOfRow (row : KRow) : TN :=
  .mk (some (lowerStr row.rank ++ "__" ++ trimStr row.name)) (some 1) false
    [idNodeTN row.taxid false]

/-- The builder stack: head is the top, `(indentation, node)` pairs. -/
abbrev Stack := List (Nat × TN)

/-- The `while parent_indent >= indent: stack.pop(); ... = stack[-1]` loop,
run on a stack decomposed as top entry plus the entries below it.  Popping
folds the popped node into the entry below it (the in-place append already
happened in Python); `none` models the `IndexError` of `stack[-1]` on an
emptied stack. -/
def popWhile (indent : Nat) (top : Nat × TN) : Stack → Option Stack
  | [] => if indent ≤ top.1 then none else some [top]
  | (qi, qn) :: rest =>
    if indent ≤ top.1 then popWhile indent (qi, qn.appendChild top.2) rest
    else some (top :: (qi, qn) :: rest)

/-- One iteration of the row loop of `_kraken_to_ncbi_tree`. -/
def stepRow (st : Stack) (row : KRow) : Option Stack :=
  if rankKept row.rank then
    let indent := indentation row.name
    let node := rankNodeOfRow row
    match st with
    | [] => none
    | (pi, pn) :: rest =>
      if indent ≤ pi then
        match pn.markFirst with
        | none => none
        | some pn2 =>
          match popWhile indent (pi, pn2) rest with
          | none => none
          | some st2 => some ((indent, node) :: st2)
      else
        some ((indent, node) :: (pi, pn) :: rest)
  else
    some st

/-- The synthetic root `skbio.TreeNode()`. -/
def rootTN : TN := .mk none none false []

/-- Run the row loop from the seeded stack `deque([(0, tree)])`. -/
def buildStack (rows : List KRow) : Option Stack :=
  rows.foldlM stepRow [(0, rootTN)]

/-- Collapse the remaining stack below a given top node into the tree rooted
at the bottom entry. -/
def collapse (top : TN) : Stack → TN
  | [] => top
  | (_, qn) :: rest => collapse (qn.appendChild top) rest

/-- The epilogue of `_kraken_to_ncbi_tree`: mark the final stack top's first
child as a tip when it has children, then return the root. -/
def finalizeStack : Stack → Option TN
  | [] => none
  | (_, n) :: rest =>
    match n.markFirst with
    | some n2 => some (collapse n2 rest)
    | none => some (collapse n rest)

/-- `_kraken_to_ncbi_tree` on an already coverage-filtered row list. -/
def buildTree (rows : List KRow) : Option TN :=
  (buildStack rows).bind finalizeStack

namespace TN

mutual

def entriesOf : TN → List (TN × List Nat)
  | .mk n l f cs => entriesOfL cs 0 ++ [(.mk n l f cs, [])]

def entriesOfL : List TN → Nat → List (TN × List Nat)
  | [], _ => []
  | t :: ts, i => (entriesOf t).map (fun e => (e.1, i :: e.2)) ++ entriesOfL ts (i + 1)

end

end TN

/-- Postorder list of all nodes of a tree, with their root paths
(child indices).  `create_caches` scans the tree in this order. -/
def entries (t : TN) : List (TN × List Nat) := t.entriesOf

/-- Leaf nodes (`is_tip()` in skbio: empty children), postorder, with paths. -/
def leafEntries (t : TN) : List (TN × List Nat) :=
  (entries t).filter (fun e => e.1.children.isEmpty)

/-- The names registered in the skbio tip cache (named leaves, `None` names
are skipped). -/
def leafNames (t : TN) : List String :=
  (leafEntries t).filterMap (fun e => e.1.name)

/-- Names of all named nodes of the tree. -/
def allNodeNames (t : TN) : List String :=
  (entries t).filterMap (fun e => e.1.name)

def hasDup : List String → Bool
  | [] => false
  | x :: xs => xs.contains x || hasDup xs

/-- Non-leaf nodes, postorder, with paths: the non-tip cache of `find`. -/
def nonTipEntries (t : TN) : List (TN × List Nat) :=
  (entries t).filter (fun e => !e.1.children.isEmpty)

/-- `TreeNode.find(name)`: building the caches raises `DuplicateNodeError`
when two named tips share a name (outer `none`); otherwise the named-tip
cache is consulted first, then the non-tip cache in postorder; a miss models
`MissingNodeError` (`some none`). -/
def findIn (t : TN) (nm : Option String) : Option (Option (List Nat)) :=
  if hasDup (leafNames t) then none
  else
    match nm with
    | none => some none
    | some s =>
      match (leafEntries t).find? (fun e => decide (e.1.name = some s)) with
      | some e => some (some e.2)
      | none =>
        match (nonTipEntries t).find? (fun e => decide (e.1.name = some s)) with
        | some e => some (some e.2)
        | none => some none

/-- `matching.append(node)`: graft `sub` as last child of the node the path
points at. -/
def appendAt : TN → List Nat → TN → Option TN
  | t, [], sub => some (t.appendChild sub)
  | .mk n l f cs, i :: p, sub =>
    match cs[i]? with
    | none => none
    | some c =>
      match appendAt c p sub with
      | none => none
      | some c2 => some (.mk n l f (cs.set i c2))

/-- The `while parents:` walk of `_combine_ncbi_trees`: look each ancestor up
by name; descend on a hit, graft the whole ancestor subtree at the current
insertion point on a miss and keep looping. -/
def goWalk (ft : TN) (mp : List Nat) : List TN → Option TN
  | [] => some ft
  | node :: rest =>
    match findIn ft node.name with
    | none => none
    | some (some p) => goWalk ft p rest
    | some none =>
      match appendAt ft mp node with
      | none => none
      | some ft2 => goWalk ft2 mp rest

/-- `list(tip.ancestors())[:-1]`, already reversed into pop order: the named
chain from just below the root down to the tip's parent. -/
def chainNodes (t : TN) : List Nat → List TN
  | [] => []
  | i :: p =>
    match (t.children)[i]? with
    | none => []
    | some c => if p.isEmpty then [] else c :: chainNodes c p

/-- The body of the tip loop of `_combine_ncbi_trees` for one tip of the
donor tree (given as the tip node together with its path, which stands for
the parent chain Python reaches through the tip object). -/
def processTip (t2 : TN) (ft : TN) (e : TN × List Nat) : Option TN :=
  match findIn ft e.1.name with
  | none => none
  | some (some _) => some ft
  | some none => goWalk ft [] (chainNodes t2 e.2)

/-- `list(tree.tips())`: leaves other than the root, postorder, with their
paths. -/
def tipsOf (t : TN) : List (TN × List Nat) :=
  (leafEntries t).filter (fun e => !e.2.isEmpty)

/-- Merge one donor tree into the accumulating tree. -/
def mergeOne (ft t2 : TN) : Option TN :=
  (tipsOf t2).foldlM (processTip t2) ft

/-- `_combine_ncbi_trees`; `none` on the empty list models the `IndexError`
of `trees[0]`. -/
def combine : List TN → Option TN
  | [] => none
  | t :: rest => rest.foldlM mergeOne t

/-- The coverage filter `df[df['perc_frags_covered'] >= coverage_threshold]`
applied in `select_kraken_features` before tree building. -/
def covFilter (thr : ℚ) (rows : List KRow) : List KRow :=
  rows.filter (fun r => thr ≤ r.cov)

/-- The tree-producing part of `select_kraken_features`: per sample, filter by
coverage, build the tree, then combine all sample trees. -/
def selectTrees (reports : List (List KRow)) (thr : ℚ) : Option TN := do
  let trees ← reports.mapM (fun rows => buildTree (covFilter thr rows))
  combine trees

mutual

def flagNames : TN → List String
  | .mk n _ f cs => (if f then [n.getD ""] else []) ++ flagNamesL cs

def flagNamesL : List TN → List String
  | [] => []
  | t :: ts => flagNames t ++ flagNamesL ts

end

mutual

def idNames : TN → List String
  | .mk n l _ cs => (if l = some 0 then [n.getD ""] else []) ++ idNamesL cs

def idNamesL : List TN → List String
  | [] => []
  | t :: ts => idNames t ++ idNamesL ts

end

/-- `rank.split('__', 1)` on the character list: split at the first
occurrence of the separator; `none` models the `ValueError` of unpacking a
separator-free string into two variables. -/
def splitSep : List Char → Option (List Char × List Char)
  | [] => none
  | '_' :: '_' :: rest => some ([], rest)
  | c :: rest => (splitSep rest).map (fun p => (c :: p.1, p.2))

def splitRank (s : String) : Option (String × String) :=
  (splitSep s.data).map (fun p => (String.mk p.1, String.mk p.2))

/-- `len(r) > 1 and r.startswith('s')`: a strain-level rank code. -/
def isStrainCode (r : String) : Bool :=
  r.data.length > 1 && r.data.head? = some 's'

/-- One iteration of the first loop of `_pad_ranks` (over `reversed(ranks)`):
update the `available` dict (modelled by prepending, so that lookup finds the
last write) and collect strain entries verbatim. -/
def scanStep (st : List (String × String) × List String) (rank : String) :
    Option (List (String × String) × List String) :=
  match splitRank rank with
  | none => none
  | some (r, label) =>
    some ((r, label) :: st.1, if isStrainCode r then st.2 ++ [rank] else st.2)

def scanRanks (ranks : List String) : Option (List (String × String) × List String) :=
  ranks.reverse.foldlM scanStep ([], [])

/-- One iteration of the padding loop of `_pad_ranks`, over one rank letter.
The state is the `taxonomy` list plus `last_good_label` (`none` while the
variable is unbound; reading it then models the `UnboundLocalError`). -/
def padStep (avail : List (String × String)) (st : List String × Option String)
    (r : String) : Option (List String × Option String) :=
  match avail.lookup r with
  | some label => some (st.1 ++ [r ++ "__" ++ label], some (r ++ "__" ++ label))
  | none =>
    if st.1.isEmpty then some st
    else if r = "k" && (avail.lookup "d" = some "Bacteria" ∨ avail.lookup "d" = some "Archaea") then
      some (st.1 ++ ["k__" ++ ((avail.lookup "d").getD "")], st.2)
    else
      match st.2 with
      | none => none
      | some lg => some (st.1 ++ [r ++ "__containing " ++ lg], st.2)

/-- `reversed(order)` of the 8-rank ontology. -/
def ordR : List String := ["s", "g", "f", "o", "c", "p", "k", "d"]

/-- `_pad_ranks` up to the final join: the emitted entries in output order. -/
def padList (ranks : List String) : Option (List String) :=
  (scanRanks ranks).bind (fun sc =>
    (ordR.foldlM (padStep sc.1) (sc.2, none)).map (fun st => st.1.reverse))

def joinSemi : List String → String
  | [] => ""
  | [x] => x
  | x :: xs => x ++ ";" ++ joinSemi xs

/-- `_pad_ranks`. -/
def padRanks (ranks : List String) : Option String :=
  (padList ranks).map joinSemi

theorem buildTree_nil_eval : buildTree [] = some rootTN := rfl

theorem padRanks_full_eval :
    padRanks ["d__Bacteria", "k__Bacteria", "p__X", "c__Y", "o__Z", "f__W",
      "g__V", "s__U"] =
      some "d__Bacteria;k__Bacteria;p__X;c__Y;o__Z;f__W;g__V;s__U" := rfl

theorem padRanks_strain_only_eval : padRanks ["s1__X"] = none := rfl

theorem padRanks_eukaryota_eval :
    padRanks ["d__Eukaryota", "s__SpeciesX"] =
      some ("d__Eukaryota;k__containing s__SpeciesX;p__containing s__SpeciesX;" ++
        "c__containing s__SpeciesX;o__containing s__SpeciesX;" ++
        "f__containing s__SpeciesX;g__containing s__SpeciesX;s__SpeciesX") := rfl

theorem padRanks_archaea_eval :
    padRanks ["d__Archaea", "g__Geo"] =
      some ("d__Archaea;k__Archaea;p__containing g__Geo;c__containing g__Geo;" ++
        "o__containing g__Geo;f__containing g__Geo;g__Geo") := rfl

theorem combine_nil_eval : combine [] = none := rfl

theorem selectTrees_nil_eval : selectTrees [] 1 = none := rfl

/-! ## Collector homomorphism lemmas -/

theorem idNamesL_append (l1 l2 : List TN) :
    idNamesL (l1 ++ l2) = idNamesL l1 ++ idNamesL l2 := by
  induction l1 with
  | nil => simp [idNamesL]
  | cons t ts ih => simp [idNamesL, ih]

theorem idNames_appendChild (a b : TN) :
    idNames (a.appendChild b) = idNames a ++ idNames b := by
  cases a with
  | mk n l f cs => simp [TN.appendChild, idNames, idNamesL_append, idNamesL]

theorem idNames_setTip (c : TN) : idNames c.setTip = idNames c := by
  cases c with
  | mk n l f cs => simp [TN.setTip, idNames]

theorem idNames_markFirst {n n2 : TN} (h : n.markFirst = some n2) :
    idNames n2 = idNames n := by
  cases n with
  | mk nm l f cs =>
    cases cs with
    | nil => simp [TN.markFirst] at h
    | cons c cs =>
      simp only [TN.markFirst, Option.some_inj] at h
      rw [← h]
      simp [idNames, idNamesL, idNames_setTip]

theorem idNames_rankNode (row : KRow) :
    idNames (rankNodeOfRow row) = [row.taxid] := by
  simp [rankNodeOfRow, idNodeTN, idNames, idNamesL]

theorem flagNamesL_append (l1 l2 : List TN) :
    flagNamesL (l1 ++ l2) = flagNamesL l1 ++ flagNamesL l2 := by
  induction l1 with
  | nil => simp [flagNamesL]
  | cons t ts ih => simp [flagNamesL, ih]

theorem flagNames_appendChild (a b : TN) :
    flagNames (a.appendChild b) = flagNames a ++ flagNames b := by
  cases a with
  | mk n l f cs => simp [TN.appendChild, flagNames, flagNamesL_append, flagNamesL]

theorem flagNames_setTip_of_not_tip {c : TN} (h : c.tip = false) :
    flagNames c.setTip = (c.name.getD "") :: flagNames c := by
  cases c with
  | mk n l f cs =>
    have hf : f = false := h
    subst hf
    simp [TN.setTip, TN.name, flagNames]

theorem flagNames_rankNode (row : KRow) :
    flagNames (rankNodeOfRow row) = [] := by
  simp [rankNodeOfRow, idNodeTN, flagNames, flagNamesL]

/-- Concatenation of a per-node collector over a stack, bottom entry first. -/
def joinStack (f : TN → List String) : Stack → List String
  | [] => []
  | e :: rest => joinStack f rest ++ f e.2

theorem popWhile_joinStack (f : TN → List String)
    (hf : ∀ a b, f (a.appendChild b) = f a ++ f b) (indent : Nat) :
    ∀ (rest : Stack) (top : Nat × TN) {st2 : Stack},
      popWhile indent top rest = some st2 →
      joinStack f st2 = joinStack f (top :: rest) := by
  intro rest
  induction rest with
  | nil =>
    intro top st2 h
    simp only [popWhile] at h
    split_ifs at h
    rcases Option.some_inj.1 h with rfl
    rfl
  | cons q rrest ih =>
    intro top st2 h
    rcases q with ⟨qi, qn⟩
    simp only [popWhile] at h
    split_ifs at h with hle
    · have h2 := ih (qi, qn.appendChild top.2) h
      rw [h2]
      simp [joinStack, hf]
    · rcases Option.some_inj.1 h with rfl
      rfl

theorem collapse_joinStack (f : TN → List String)
    (hf : ∀ a b, f (a.appendChild b) = f a ++ f b) :
    ∀ (rest : Stack) (top : TN),
      f (collapse top rest) = joinStack f rest ++ f top := by
  intro rest
  induction rest with
  | nil => intro top; simp [collapse, joinStack]
  | cons q rrest ih =>
    intro top
    rcases q with ⟨qi, qn⟩
    simp only [collapse]
    rw [ih (qn.appendChild top)]
    simp [joinStack, hf]

/-! ## Stack well-formedness and builder totality (claim C1) -/

/-- Invariant of the builder stack: nonempty, the bottom entry is at
indentation 0 (the synthetic root), and every entry above it has
indentation at least 1 and a nonempty children list. -/
def stackOK : Stack → Prop
  | [] => False
  | [(i, _)] => i = 0
  | e :: rest => (1 ≤ e.1 ∧ e.2.children ≠ []) ∧ stackOK rest

theorem markFirst_of_children_ne {n : TN} (h : n.children ≠ []) :
    ∃ n2, n.markFirst = some n2 ∧ n2.children ≠ [] := by
  cases n with
  | mk nm l f cs =>
    cases cs with
    | nil => simp [TN.children] at h
    | cons c cs => exact ⟨_, rfl, by simp [TN.children]⟩

theorem stackOK_cons {e : Nat × TN} {st : Stack} (h1 : 1 ≤ e.1)
    (h2 : e.2.children ≠ []) (h3 : stackOK st) : stackOK (e :: st) := by
  cases st with
  | nil => exact h3.elim
  | cons f rest => exact ⟨⟨h1, h2⟩, h3⟩

theorem popWhile_ok (indent : Nat) (hind : 1 ≤ indent) :
    ∀ (rest : Stack) (top : Nat × TN), stackOK (top :: rest) →
      ∃ st2, popWhile indent top rest = some st2 ∧ stackOK st2 := by
  intro rest
  induction rest with
  | nil =>
    intro top h
    rcases top with ⟨i, n⟩
    have hi : i = 0 := h
    subst hi
    refine ⟨[(0, n)], ?_, rfl⟩
    simp [popWhile, Nat.not_le.2 (Nat.lt_of_lt_of_le Nat.zero_lt_one hind)]
  | cons q rrest ih =>
    intro top h
    rcases h with ⟨⟨htop1, htop2⟩, hrest⟩
    by_cases hle : indent ≤ top.1
    · rcases q with ⟨qi, qn⟩
      have hok : stackOK ((qi, qn.appendChild top.2) :: rrest) := by
        cases rrest with
        | nil => exact hrest
        | cons r rrrest =>
          rcases hrest with ⟨⟨hq1, hq2⟩, hrr⟩
          refine ⟨⟨hq1, ?_⟩, hrr⟩
          cases qn with
          | mk nm l f cs => simp [TN.appendChild, TN.children]
      rcases ih (qi, qn.appendChild top.2) hok with ⟨st2, hpw, hok2⟩
      exact ⟨st2, by simp [popWhile, hle, hpw], hok2⟩
    · refine ⟨top :: q :: rrest, by simp [popWhile, hle], ?_⟩
      exact ⟨⟨htop1, htop2⟩, hrest⟩

theorem stepRow_ok (st : Stack) (row : KRow) (hok : stackOK st)
    (hind : rankKept row.rank = true → 1 ≤ indentation row.name) :
    ∃ st2, stepRow st row = some st2 ∧ stackOK st2 := by
  by_cases hk : rankKept row.rank = true
  · have h1 : 1 ≤ indentation row.name := hind hk
    cases st with
    | nil => exact hok.elim
    | cons e rest =>
      rcases e with ⟨pi, pn⟩
      by_cases hle : indentation row.name ≤ pi
      · have hrest : stackOK rest ∧ pn.children ≠ [] := by
          cases rest with
          | nil =>
            have : pi = 0 := hok
            omega
          | cons f r => exact ⟨hok.2, hok.1.2⟩
        rcases markFirst_of_children_ne hrest.2 with ⟨pn2, hmk, hne2⟩
        have hok2 : stackOK ((pi, pn2) :: rest) :=
          stackOK_cons (Nat.le_trans h1 hle) hne2 hrest.1
        rcases popWhile_ok (indentation row.name) h1 rest (pi, pn2) hok2 with
          ⟨st2, hpw, hok3⟩
        refine ⟨(indentation row.name, rankNodeOfRow row) :: st2, ?_, ?_⟩
        · simp [stepRow, hk, hle, hmk, hpw]
        · exact stackOK_cons h1 (by simp [rankNodeOfRow, TN.children]) hok3
      · refine ⟨(indentation row.name, rankNodeOfRow row) :: (pi, pn) :: rest,
          by simp [stepRow, hk, hle], ?_⟩
        exact stackOK_cons h1 (by simp [rankNodeOfRow, TN.children]) hok
  · exact ⟨st, by simp [stepRow, hk], hok⟩

theorem buildStack_ok (rows : List KRow)
    (hind : ∀ r ∈ rows, rankKept r.rank = true → 1 ≤ indentation r.name) :
    ∃ st, buildStack rows = some st ∧ stackOK st := by
  have main : ∀ (l : List KRow) (st : Stack), stackOK st →
      (∀ r ∈ l, rankKept r.rank = true → 1 ≤ indentation r.name) →
      ∃ st2, l.foldlM stepRow st = some st2 ∧ stackOK st2 := by
    intro l
    induction l with
    | nil => intro st h _; exact ⟨st, rfl, h⟩
    | cons r rest ih =>
      intro st h hl
      rcases stepRow_ok st r h (hl r (by simp)) with ⟨st1, hs, hok1⟩
      rcases ih st1 hok1 (fun x hx => hl x (by simp [hx])) with ⟨st2, hf, hok2⟩
      exact ⟨st2, by simp [List.foldlM_cons, hs, hf], hok2⟩
  exact main rows [(0, rootTN)] rfl hind

/-- **C1 (amended).**  When every row kept by the rank filter has
indentation at least 1 (the root's level is 0), `_kraken_to_ncbi_tree`
returns a tree without raising, resolving out-of-order indentation by
popping ancestors; the unamended claim fails for indentation-0 rows
(see the counterexample). -/
theorem c1_builder_total_above_root (rows : List KRow)
    (hind : ∀ r ∈ rows, rankKept r.rank = true → 1 ≤ indentation r.name) :
    ∃ t, buildTree rows = some t := by
  rcases buildStack_ok rows hind with ⟨st, hbs, hok⟩
  cases st with
  | nil => exact hok.elim
  | cons e rest =>
    rcases e with ⟨i, n⟩
    refine ⟨?_, ?_⟩
    · exact (finalizeStack ((i, n) :: rest)).getD rootTN
    · rw [buildTree, hbs]
      cases hm : n.markFirst with
      | none => simp [finalizeStack, hm]
      | some n2 => simp [finalizeStack, hm]

/-- Witness for C1: an out-of-order sample (indentation 1, then 3, then 1)
still builds without error. -/
theorem c1_builder_total_above_root_witness :
    ∃ t, buildTree [⟨"D", "  A", "1", 1⟩, ⟨"S", "      B", "5", 1⟩,
      ⟨"S", "  C", "6", 1⟩] = some t :=
  c1_builder_total_above_root _ (by decide)

/-- **C1 (counterexample).**  A filtered row at indentation 0 (label with no
leading spaces) makes `_kraken_to_ncbi_tree` raise an `IndexError`
(`children[0]` on the childless root, or `stack[-1]` on the emptied stack)
instead of returning a tree. -/
theorem c1_counterexample :
    buildTree [⟨"D", "Bacteria", "2", 1⟩] = none := rfl

/-! ## Empty input (claim C9) -/

/-- **C9.**  On empty input the pipeline does not produce a defined
empty-result error: `_combine_ncbi_trees` evaluates `trees[0]` on an empty
list and the `IndexError` escapes `select_kraken_features` (modelled by
`none` with no dedicated error kind). -/
theorem c9_empty_input_crashes : selectTrees [] 1 = none := rfl

/-! ## Row filter and identifier-node accounting (claim C6) -/

theorem stepRow_joinIds {st st2 : Stack} {row : KRow}
    (h : stepRow st row = some st2) :
    joinStack idNames st2 =
      joinStack idNames st ++ (if rankKept row.rank then [row.taxid] else []) := by
  by_cases hk : rankKept row.rank = true
  · rw [if_pos hk]
    cases st with
    | nil => simp [stepRow, hk] at h
    | cons e rest =>
      rcases e with ⟨pi, pn⟩
      by_cases hle : indentation row.name ≤ pi
      · rcases hmk : pn.markFirst with _ | pn2
        · simp [stepRow, hk, hle, hmk] at h
        · rcases hpw : popWhile (indentation row.name) (pi, pn2) rest with _ | st3
          · simp [stepRow, hk, hle, hmk, hpw] at h
          · have hst2 : st2 = (indentation row.name, rankNodeOfRow row) :: st3 := by
              simp only [stepRow, hk, if_true, hle, hmk, hpw] at h
              exact (Option.some_inj.1 h).symm
            rw [hst2]
            have h3 := popWhile_joinStack idNames idNames_appendChild
              (indentation row.name) rest (pi, pn2) hpw
            simp only [joinStack] at h3 ⊢
            rw [h3, idNames_rankNode, idNames_markFirst hmk]
      · have hst2 : st2 =
            (indentation row.name, rankNodeOfRow row) :: (pi, pn) :: rest := by
          simp only [stepRow, hk, if_true, hle, if_false] at h
          exact (Option.some_inj.1 h).symm
        rw [hst2]
        simp only [joinStack]
        rw [idNames_rankNode]
  · have hst2 : st2 = st := by
      simp only [stepRow, hk] at h
      exact (Option.some_inj.1 h).symm
    simp [hst2, hk]

theorem buildFold_joinIds (rows : List KRow) :
    ∀ {st st2 : Stack}, rows.foldlM stepRow st = some st2 →
      joinStack idNames st2 =
        joinStack idNames st ++
          ((rows.filter (fun r => rankKept r.rank)).map (fun r => r.taxid)) := by
  induction rows with
  | nil =>
    intro st st2 h
    rcases Option.some_inj.1 h with rfl
    simp
  | cons r rest ih =>
    intro st st2 h
    rw [List.foldlM_cons] at h
    rcases hs : stepRow st r with _ | st1
    · rw [hs] at h; simp at h
    · rw [hs] at h
      simp only [Option.bind_eq_bind, Option.some_bind] at h
      rw [ih h, stepRow_joinIds hs]
      by_cases hk : rankKept r.rank = true
      · simp [hk]
      · simp only [Bool.not_eq_true] at hk
        simp [hk]

/-- **C6.**  A row contributes an identifier node to the sample tree exactly
when it passes the coverage threshold and the rank filter: the identifier
names of the built tree, in traversal order, are the taxon ids of exactly
the rows with `perc_frags_covered >= threshold` and an admissible rank code,
in input order; moreover the coverage filter is a pure order-preserving
`List.filter`. -/
theorem c6_filter_contract (thr : ℚ) (rows : List KRow) (t : TN)
    (h : buildTree (covFilter thr rows) = some t) :
    idNames t =
      (rows.filter (fun r => decide (thr ≤ r.cov) && rankKept r.rank)).map
        (fun r => r.taxid) ∧
      (covFilter thr rows).Sublist rows := by
  refine ⟨?_, List.filter_sublist rows⟩
  rw [buildTree] at h
  rcases hbs : buildStack (covFilter thr rows) with _ | st
  · rw [hbs] at h; simp at h
  · rw [hbs] at h
    simp only [Option.some_bind, Option.bind_eq_bind] at h
    have hids := buildFold_joinIds (covFilter thr rows) hbs
    have hroot : joinStack idNames [(0, rootTN)] = [] := by
      simp [joinStack, rootTN, idNames, idNamesL]
    rw [hroot] at hids
    cases st with
    | nil => simp [finalizeStack] at h
    | cons e rest =>
      rcases e with ⟨i, n⟩
      have hcol : idNames t = joinStack idNames ((i, n) :: rest) := by
        rcases hmk : n.markFirst with _ | n2
        · simp only [finalizeStack, hmk, Option.some_inj] at h
          rw [← h, collapse_joinStack idNames idNames_appendChild]
          simp [joinStack]
        · simp only [finalizeStack, hmk, Option.some_inj] at h
          rw [← h, collapse_joinStack idNames idNames_appendChild]
          simp [joinStack, idNames_markFirst hmk]
      rw [hcol, hids]
      simp only [List.nil_append, covFilter, List.filter_filter]
      rw [List.filter_congr
        (fun a _ => Bool.and_comm (rankKept a.rank) (decide (thr ≤ a.cov)))]

/-- A small report with a low-coverage row, a root row and a non-strain
infra-clade row, exercising both filters. -/
def c6Rows : List KRow :=
  [⟨"R", "root", "1", 5⟩, ⟨"D", "  Bacteria", "2", 5⟩,
   ⟨"G1", "    G", "9", 5⟩, ⟨"S", "    EColi", "562", 0⟩,
   ⟨"S1", "    Sub", "563", 5⟩]

/-- The tree `_kraken_to_ncbi_tree` builds from `c6Rows` at threshold 1. -/
def c6Tree : TN :=
  .mk none none false
    [.mk (some "d__Bacteria") (some 1) false
      [idNodeTN "2" false,
       .mk (some "s1__Sub") (some 1) false [idNodeTN "563" true]]]

/-- Witness for C6: only the domain and strain rows of `c6Rows` survive and
contribute identifier nodes. -/
theorem c6_filter_contract_witness :
    idNames c6Tree =
      (c6Rows.filter (fun r => decide ((1 : ℚ) ≤ r.cov) && rankKept r.rank)).map
        (fun r => r.taxid) ∧
      (covFilter 1 c6Rows).Sublist c6Rows :=
  c6_filter_contract 1 c6Rows c6Tree rfl

/-! ## Tip marking (claims C4 and C5) -/

theorem stepRow_top {st st2 : Stack} {row : KRow}
    (hk : rankKept row.rank = true) (h : stepRow st row = some st2) :
    ∃ st3, st2 = (indentation row.name, rankNodeOfRow row) :: st3 := by
  cases st with
  | nil => simp [stepRow, hk] at h
  | cons e rest =>
    rcases e with ⟨pi, pn⟩
    by_cases hle : indentation row.name ≤ pi
    · rcases hmk : pn.markFirst with _ | pn2
      · simp [stepRow, hk, hle, hmk] at h
      · rcases hpw : popWhile (indentation row.name) (pi, pn2) rest with _ | st3
        · simp [stepRow, hk, hle, hmk, hpw] at h
        · simp only [stepRow, hk, if_true, hle, hmk, hpw] at h
          exact ⟨st3, (Option.some_inj.1 h).symm⟩
    · simp only [stepRow, hk, if_true, hle, if_false] at h
      exact ⟨(pi, pn) :: rest, (Option.some_inj.1 h).symm⟩

theorem fold_no_kept (l : List KRow) :
    ∀ st, (∀ x ∈ l, rankKept x.rank = false) → l.foldlM stepRow st = some st := by
  induction l with
  | nil => intro st _; rfl
  | cons r rest ih =>
    intro st h
    have hr : rankKept r.rank = false := h r (by simp)
    rw [List.foldlM_cons]
    have hs : stepRow st r = some st := by simp [stepRow, hr]
    rw [hs]
    simpa using ih st (fun x hx => h x (by simp [hx]))

theorem buildFold_top (rows : List KRow) :
    ∀ {st st2 : Stack} {rl : KRow},
      rows.foldlM stepRow st = some st2 →
      (rows.filter (fun r => rankKept r.rank)).getLast? = some rl →
      ∃ i n rest2, st2 = (i, n) :: rest2 ∧
        ∃ cs, n.children = idNodeTN rl.taxid false :: cs := by
  induction rows with
  | nil => intro st st2 rl _ hl; simp at hl
  | cons r rest ih =>
    intro st st2 rl h hl
    rw [List.foldlM_cons] at h
    rcases hs : stepRow st r with _ | st1
    · rw [hs] at h; simp at h
    · rw [hs] at h
      simp only [Option.bind_eq_bind, Option.some_bind] at h
      by_cases hk : rankKept r.rank = true
      · rcases hrest : rest.filter (fun r => rankKept r.rank) with _ | ⟨x, l2⟩
        · have hnk : ∀ x ∈ rest, rankKept x.rank = false := by
            intro x hx
            have := List.filter_eq_nil_iff.mp hrest x hx
            simpa using this
          have hid : st2 = st1 := by
            have := fold_no_kept rest st1 hnk
            rw [this] at h
            exact (Option.some_inj.1 h).symm
          have hrl : rl = r := by
            rw [List.filter_cons, if_pos hk, hrest] at hl
            simpa using hl.symm
          rcases stepRow_top hk hs with ⟨st3, hst1⟩
          refine ⟨indentation r.name, rankNodeOfRow r, st3, by rw [hid, hst1], [], ?_⟩
          rw [hrl]
          simp [rankNodeOfRow, TN.children]
        · have hl2 : (x :: l2).getLast? = some rl := by
            rw [List.filter_cons, if_pos hk, hrest, List.getLast?_cons_cons] at hl
            exact hl
          rw [← hrest] at hl2
          exact ih h hl2
      · simp only [Bool.not_eq_true] at hk
        have hid : st1 = st := by
          simp only [stepRow, hk] at hs
          exact (Option.some_inj.1 hs).symm
        rw [List.filter_cons, if_neg (by simp [hk])] at hl
        rw [hid] at h
        exact ih h hl

/-- **C5.**  If at least one row survives the rank filter, then after all rows
are processed the final stack top's identifier child — the identifier of the
last kept row — is marked `is_actual_tip` in the returned tree. -/
theorem c5_last_kept_row_is_tip (rows : List KRow) (t : TN) (rl : KRow)
    (h : buildTree rows = some t)
    (hl : (rows.filter (fun r => rankKept r.rank)).getLast? = some rl) :
    rl.taxid ∈ flagNames t := by
  rw [buildTree] at h
  rcases hbs : buildStack rows with _ | st
  · rw [hbs] at h; simp at h
  · rw [hbs] at h
    simp only [Option.some_bind, Option.bind_eq_bind] at h
    rcases buildFold_top rows hbs hl with ⟨i, n, rest2, hst, cs, hcs⟩
    subst hst
    cases n with
    | mk nm l f cs0 =>
      have hcs0 : cs0 = idNodeTN rl.taxid false :: cs := hcs
      subst hcs0
      have hmk : (TN.mk nm l f (idNodeTN rl.taxid false :: cs)).markFirst =
          some (.mk nm l f ((idNodeTN rl.taxid false).setTip :: cs)) := rfl
      rw [finalizeStack, hmk] at h
      simp only [Option.some_inj] at h
      rw [← h, collapse_joinStack flagNames flagNames_appendChild]
      have hflag : flagNames (TN.mk nm l f ((idNodeTN rl.taxid false).setTip :: cs)) =
          (if f then [nm.getD ""] else []) ++ (rl.taxid :: flagNamesL cs) := by
        simp [flagNames, flagNamesL, idNodeTN, TN.setTip]
      rw [hflag]
      simp

/-- Witness for C5: a two-row sample whose last kept row has id `7`. -/
theorem c5_last_kept_row_is_tip_witness :
    "7" ∈ flagNames
      (.mk none none false
        [.mk (some "d__A") (some 1) false
          [idNodeTN "4" false,
           .mk (some "s__B") (some 1) false [idNodeTN "7" true]]]) :=
  c5_last_kept_row_is_tip
    [⟨"D", "  A", "4", 1⟩, ⟨"S", "    B", "7", 1⟩] _ ⟨"S", "    B", "7", 1⟩
    rfl rfl

/-- **C4.**  When a filtered row arrives whose indentation is at most the
current stack top's, exactly one new tip mark is produced for that row, and
it is the stack top's first (identifier) child, marked before any popping:
the multiset of flagged names grows by exactly that child's name, so no
deeper stack entry is marked during a multi-level pop. -/
theorem c4_single_tip_mark_per_row (row : KRow) (pi : Nat) (pn c : TN)
    (cs : List TN) (rest st2 : Stack)
    (hk : rankKept row.rank = true)
    (hle : indentation row.name ≤ pi)
    (hc : pn.children = c :: cs)
    (hcf : c.tip = false)
    (hstep : stepRow ((pi, pn) :: rest) row = some st2) :
    (↑(joinStack flagNames st2) : Multiset String) =
      ↑(joinStack flagNames ((pi, pn) :: rest)) + {c.name.getD ""} := by
  cases pn with
  | mk nm l f cs0 =>
    have hcs0 : cs0 = c :: cs := hc
    subst hcs0
    have hmk : (TN.mk nm l f (c :: cs)).markFirst =
        some (.mk nm l f (c.setTip :: cs)) := rfl
    rcases hpw : popWhile (indentation row.name) (pi, .mk nm l f (c.setTip :: cs))
        rest with _ | st3
    · simp [stepRow, hk, hle, hmk, hpw] at hstep
    · have hst2 : st2 = (indentation row.name, rankNodeOfRow row) :: st3 := by
        simp only [stepRow, hk, if_true, hle, hmk, hpw] at hstep
        exact (Option.some_inj.1 hstep).symm
      have h3 := popWhile_joinStack flagNames flagNames_appendChild
        (indentation row.name) rest (pi, .mk nm l f (c.setTip :: cs)) hpw
      rw [hst2]
      simp only [joinStack] at h3 ⊢
      rw [h3, flagNames_rankNode, List.append_nil]
      have hflag2 : flagNames (TN.mk nm l f (c.setTip :: cs)) =
          (if f then [nm.getD ""] else []) ++
            ((c.name.getD "" :: flagNames c) ++ flagNamesL cs) := by
        simp [flagNames, flagNamesL, flagNames_setTip_of_not_tip hcf]
      have hflag1 : flagNames (TN.mk nm l f (c :: cs)) =
          (if f then [nm.getD ""] else []) ++ (flagNames c ++ flagNamesL cs) := by
        simp [flagNames, flagNamesL]
      rw [hflag1, hflag2]
      simp only [← List.append_assoc]
      simp only [← Multiset.coe_add, ← Multiset.cons_coe]
      simp only [← Multiset.singleton_add]
      abel

/-- Witness for C4: a row at indentation 1 arriving over a three-entry stack
(indentations 0, 1, 2) marks exactly the top's identifier child `9` while
popping two levels. -/
theorem c4_single_tip_mark_per_row_witness :
    (↑(joinStack flagNames
        ((stepRow
          [(2, .mk (some "s__T") (some 1) false [idNodeTN "9" false]),
           (1, .mk (some "d__A") (some 1) false [idNodeTN "4" false]),
           (0, rootTN)]
          ⟨"D", "  B", "5", 1⟩).getD [])) : Multiset String) =
      ↑(joinStack flagNames
        [(2, .mk (some "s__T") (some 1) false [idNodeTN "9" false]),
         (1, .mk (some "d__A") (some 1) false [idNodeTN "4" false]),
         (0, rootTN)]) + {"9"} := by
  have h := c4_single_tip_mark_per_row ⟨"D", "  B", "5", 1⟩ 2
    (.mk (some "s__T") (some 1) false [idNodeTN "9" false])
    (idNodeTN "9" false) []
    [(1, .mk (some "d__A") (some 1) false [idNodeTN "4" false]), (0, rootTN)]
    ((stepRow
      [(2, .mk (some "s__T") (some 1) false [idNodeTN "9" false]),
       (1, .mk (some "d__A") (some 1) false [idNodeTN "4" false]),
       (0, rootTN)]
      ⟨"D", "  B", "5", 1⟩).getD [])
    rfl (by decide) rfl rfl rfl
  exact h

/-! ## Merge: idempotence (claim C3) -/

theorem mem_leafNames_of_entry {t : TN} {e : TN × List Nat} {s : String}
    (he : e ∈ leafEntries t) (hn : e.1.name = some s) : s ∈ leafNames t :=
  List.mem_filterMap.2 ⟨e, he, hn⟩

theorem findIn_found {t : TN} {s : String} (hd : hasDup (leafNames t) = false)
    (hs : s ∈ leafNames t) : ∃ p, findIn t (some s) = some (some p) := by
  rcases List.mem_filterMap.1 hs with ⟨e, he, hn⟩
  have hfs : ((leafEntries t).find? (fun e => decide (e.1.name = some s))).isSome := by
    rw [List.find?_isSome]
    exact ⟨e, he, by simp [hn]⟩
  rcases hfe : (leafEntries t).find? (fun e => decide (e.1.name = some s)) with _ | e2
  · rw [hfe] at hfs; simp at hfs
  · exact ⟨e2.2, by simp [findIn, hd, hfe]⟩

theorem processTip_skip {t2 ft : TN} {e : TN × List Nat}
    (hd : hasDup (leafNames ft) = false) {s : String} (hn : e.1.name = some s)
    (hs : s ∈ leafNames ft) : processTip t2 ft e = some ft := by
  rcases findIn_found hd hs with ⟨p, hf⟩
  simp [processTip, hn, hf]

theorem fold_processTip_skip {t2 : TN} (l : List (TN × List Nat)) :
    ∀ ft, (∀ e ∈ l, processTip t2 ft e = some ft) →
      l.foldlM (processTip t2) ft = some ft := by
  induction l with
  | nil => intro ft _; rfl
  | cons e rest ih =>
    intro ft h
    rw [List.foldlM_cons, h e (by simp)]
    simpa using ih ft (fun x hx => h x (by simp [hx]))

/-- **C3.**  Merging a tree with an identical second copy of itself returns
the accumulating tree unchanged: every tip of the copy is found by name in
the original, so no subtree is ever grafted (hypotheses: the non-root leaves
are named and no two named leaves share a name, as holds for built sample
trees with distinct taxon ids). -/
theorem c3_merge_self_idempotent (t : TN)
    (hnamed : ∀ e ∈ tipsOf t, (e.1.name).isSome)
    (hnodup : hasDup (leafNames t) = false) :
    combine [t, t] = some t := by
  have hone : mergeOne t t = some t := by
    rw [mergeOne]
    refine fold_processTip_skip (tipsOf t) t ?_
    intro e he
    rcases hn : e.1.name with _ | s
    · have := hnamed e he
      rw [hn] at this
      simp at this
    · refine processTip_skip hnodup hn ?_
      exact mem_leafNames_of_entry (List.mem_filter.1 he).1 hn
  show List.foldlM mergeOne t [t] = some t
  rw [List.foldlM_cons, hone]
  rfl

/-- Witness for C3: merging the two-rank sample tree with a copy of itself
leaves it unchanged. -/
theorem c3_merge_self_idempotent_witness :
    combine
      [.mk none none false
        [.mk (some "d__A") (some 1) false
          [idNodeTN "4" false,
           .mk (some "s__B") (some 1) false [idNodeTN "7" true]]],
       .mk none none false
        [.mk (some "d__A") (some 1) false
          [idNodeTN "4" false,
           .mk (some "s__B") (some 1) false [idNodeTN "7" true]]]] =
      some (.mk none none false
        [.mk (some "d__A") (some 1) false
          [idNodeTN "4" false,
           .mk (some "s__B") (some 1) false [idNodeTN "7" true]]]) :=
  c3_merge_self_idempotent _ (by decide) (by decide)

/-! ## Merge walk: at most one graft per tip (claim C8) -/

mutual

def nodesOf : TN → List TN
  | .mk n l f cs => .mk n l f cs :: nodesOfL cs

def nodesOfL : List TN → List TN
  | [] => []
  | t :: ts => nodesOf t ++ nodesOfL ts

end

theorem self_mem_nodesOf (t : TN) : t ∈ nodesOf t := by
  cases t with
  | mk n l f cs => simp [nodesOf]

theorem mem_nodesOfL_of_mem {cs : List TN} {c z : TN} (hc : c ∈ cs)
    (hz : z ∈ nodesOf c) : z ∈ nodesOfL cs := by
  induction cs with
  | nil => simp at hc
  | cons c0 ts ih =>
    rcases List.mem_cons.1 hc with hc | hc
    · subst hc
      simp [nodesOfL, hz]
    · simp [nodesOfL, ih hc]

theorem mem_nodesOf_of_child {t c z : TN} (hc : c ∈ t.children)
    (hz : z ∈ nodesOf c) : z ∈ nodesOf t := by
  cases t with
  | mk n l f cs =>
    rw [TN.children] at hc
    simp [nodesOf, mem_nodesOfL_of_mem hc hz]

/-- The ancestor chain handed to the merge walk: consecutive elements are
parent and child. -/
def chainCond : List TN → Prop
  | [] => True
  | [_] => True
  | x :: y :: l => y ∈ x.children ∧ chainCond (y :: l)

theorem chainCond_tail {x : TN} {l : List TN} (h : chainCond (x :: l)) :
    chainCond l := by
  cases l with
  | nil => trivial
  | cons y r => exact h.2

theorem chain_tail_mem {l : List TN} :
    ∀ {x : TN}, chainCond (x :: l) → ∀ y ∈ l, y ∈ nodesOf x := by
  induction l with
  | nil => intro x _ y hy; simp at hy
  | cons z r ih =>
    intro x h y hy
    rcases List.mem_cons.1 hy with hy | hy
    · subst hy
      exact mem_nodesOf_of_child h.1 (self_mem_nodesOf y)
    · exact mem_nodesOf_of_child h.1 (ih h.2 y hy)

mutual

theorem nodesOf_entry : ∀ (t : TN) (z : TN), z ∈ nodesOf t → ∃ p, (z, p) ∈ t.entriesOf
  | .mk n l f cs, z, hz => by
    rw [nodesOf] at hz
    rcases List.mem_cons.1 hz with hz | hz
    · refine ⟨[], ?_⟩
      subst hz
      rw [TN.entriesOf]
      simp
    · rcases nodesOfL_entry cs z hz 0 with ⟨q, hq⟩
      refine ⟨q, ?_⟩
      rw [TN.entriesOf]
      exact List.mem_append.2 (Or.inl hq)

theorem nodesOfL_entry : ∀ (cs : List TN) (z : TN), z ∈ nodesOfL cs →
    ∀ k, ∃ q, (z, q) ∈ TN.entriesOfL cs k
  | [], z, hz, k => by rw [nodesOfL] at hz; simp at hz
  | c :: ts, z, hz, k => by
    rw [nodesOfL] at hz
    rcases List.mem_append.1 hz with hz | hz
    · rcases nodesOf_entry c z hz with ⟨p, hp⟩
      refine ⟨k :: p, ?_⟩
      rw [TN.entriesOfL]
      exact List.mem_append.2 (Or.inl (List.mem_map.2 ⟨(z, p), hp, rfl⟩))
    · rcases nodesOfL_entry ts z hz (k + 1) with ⟨q, hq⟩
      refine ⟨q, ?_⟩
      rw [TN.entriesOfL]
      exact List.mem_append.2 (Or.inr hq)

end

/-- Names of non-leaf nodes, the second cache consulted by `find`. -/
def nonTipNames (t : TN) : List String :=
  (nonTipEntries t).filterMap (fun e => e.1.name)

theorem name_in_names_of_mem {t z : TN} {s : String} (hz : z ∈ nodesOf t)
    (hn : z.name = some s) : s ∈ leafNames t ∨ s ∈ nonTipNames t := by
  rcases nodesOf_entry t z hz with ⟨p, hp⟩
  by_cases hc : z.children.isEmpty
  · left
    refine List.mem_filterMap.2 ⟨(z, p), ?_, hn⟩
    exact List.mem_filter.2 ⟨hp, by simpa using hc⟩
  · right
    refine List.mem_filterMap.2 ⟨(z, p), ?_, hn⟩
    exact List.mem_filter.2 ⟨hp, by simpa using hc⟩

theorem findIn_not_missing {t : TN} {s : String}
    (h : s ∈ leafNames t ∨ s ∈ nonTipNames t) :
    findIn t (some s) ≠ some none := by
  rw [findIn]
  by_cases hd : hasDup (leafNames t) = true
  · simp [hd]
  · simp only [Bool.not_eq_true] at hd
    simp only [hd, if_false, Bool.false_eq_true]
    rcases hf1 : (leafEntries t).find? (fun e => decide (e.1.name = some s)) with _ | e1
    · rcases hf2 : (nonTipEntries t).find?
          (fun e => decide (e.1.name = some s)) with _ | e2
      · rcases h with h | h
        · rcases List.mem_filterMap.1 h with ⟨e, he, hn⟩
          have := List.find?_eq_none.1 hf1 e he
          simp [hn] at this
        · rcases List.mem_filterMap.1 h with ⟨e, he, hn⟩
          have := List.find?_eq_none.1 hf2 e he
          simp [hn] at this
      · rw [hf1, hf2]
        simp
    · rw [hf1]
      simp

theorem nodesOfL_set {cs : List TN} {i : Nat} {c c2 z : TN}
    (hget : cs[i]? = some c) (hz : z ∈ nodesOf c2) :
    z ∈ nodesOfL (cs.set i c2) := by
  induction cs generalizing i with
  | nil => simp at hget
  | cons c0 ts ih =>
    cases i with
    | zero =>
      rw [List.set_cons_zero]
      simp [nodesOfL, hz]
    | succ j =>
      rw [List.set_cons_succ]
      simp only [List.getElem?_cons_succ] at hget
      simp [nodesOfL, ih hget]

theorem appendAt_nodes : ∀ (mp : List Nat) (ft sub ft2 : TN),
    appendAt ft mp sub = some ft2 → ∀ z ∈ nodesOf sub, z ∈ nodesOf ft2 := by
  intro mp
  induction mp with
  | nil =>
    intro ft sub ft2 h z hz
    rw [appendAt] at h
    rcases Option.some_inj.1 h with rfl
    cases ft with
    | mk n l f cs =>
      rw [TN.appendChild]
      simp only [nodesOf, List.mem_cons]
      right
      exact mem_nodesOfL_of_mem (by simp) hz
  | cons i p ih =>
    intro ft sub ft2 h z hz
    cases ft with
    | mk n l f cs =>
      rcases hget : cs[i]? with _ | c
      · simp [appendAt, hget] at h
      · rcases happ : appendAt c p sub with _ | c2
        · simp [appendAt, hget, happ] at h
        · simp only [appendAt, hget, happ] at h
          rcases Option.some_inj.1 h with rfl
          simp only [nodesOf, List.mem_cons]
          right
          exact nodesOfL_set hget (ih c sub c2 happ z hz)

/-- The walk as the spec describes it: after grafting the first absent
ancestor's subtree, stop walking. -/
def goWalkStop (ft : TN) (mp : List Nat) : List TN → Option TN
  | [] => some ft
  | node :: rest =>
    match findIn ft node.name with
    | none => none
    | some (some p) => goWalkStop ft p rest
    | some none => appendAt ft mp node

theorem goWalk_found_nochange (rest : List TN) :
    ∀ (ft : TN) (mp : List Nat) {ft3 : TN},
      (∀ y ∈ rest, findIn ft y.name ≠ some none) →
      goWalk ft mp rest = some ft3 → ft3 = ft := by
  induction rest with
  | nil =>
    intro ft mp ft3 _ hw
    exact (Option.some_inj.1 hw).symm
  | cons y r ih =>
    intro ft mp ft3 h hw
    rw [goWalk] at hw
    rcases hfi : findIn ft y.name with _ | op
    · rw [hfi] at hw; simp at hw
    · rcases op with _ | p
      · exact absurd hfi (h y (by simp))
      · rw [hfi] at hw
        exact ih ft p (fun z hz => h z (by simp [hz])) hw

/-- **C8.**  In the ancestor walk of `_combine_ncbi_trees`, once the first
absent ancestor's whole subtree has been grafted at the insertion point,
every remaining ancestor is found inside the grafted subtree, so the loop
performs no further mutation: continuing is equivalent to stopping after
the single graft (for a named parent chain, as produced by built trees). -/
theorem c8_walk_single_graft (parents : List TN) :
    ∀ (ft : TN) (mp : List Nat) (ft2 : TN), chainCond parents →
      (∀ x ∈ parents, (x.name).isSome) →
      goWalk ft mp parents = some ft2 →
      goWalkStop ft mp parents = some ft2 := by
  induction parents with
  | nil => intro ft mp ft2 _ _ hw; exact hw
  | cons x rest ih =>
    intro ft mp ft2 hch hnm hw
    rw [goWalk] at hw
    rw [goWalkStop]
    rcases hfi : findIn ft x.name with _ | op
    · rw [hfi] at hw; simp at hw
    · rcases op with _ | p
      · rw [hfi] at hw
        rcases happ : appendAt ft mp x with _ | ftA
        · rw [happ] at hw; simp at hw
        · rw [happ] at hw
          have hnc : ft2 = ftA := by
            refine goWalk_found_nochange rest ftA mp ?_ hw
            intro y hy
            have hyx : y ∈ nodesOf x := chain_tail_mem hch y hy
            have hyA : y ∈ nodesOf ftA := appendAt_nodes mp ft x ftA happ y hyx
            rcases hn : y.name with _ | s
            · have := hnm y (by simp [hy])
              rw [hn] at this
              simp at this
            · exact findIn_not_missing (name_in_names_of_mem hyA hn)
          rw [hnc]
      · rw [hfi] at hw
        exact ih ft p ft2 (chainCond_tail hch) (fun z hz => hnm z (by simp [hz])) hw

/-- Witness for C8: grafting `d__B` (with its child `s__C`) into a tree that
lacks both names appends once; the continued walk then finds `s__C` inside
the graft and mutates nothing further. -/
theorem c8_walk_single_graft_witness :
    goWalkStop (.mk none none false
        [.mk (some "d__A") (some 1) false [idNodeTN "1" false]]) []
      [.mk (some "d__B") (some 1) false
        [idNodeTN "2" false,
         .mk (some "s__C") (some 1) false [idNodeTN "3" true]],
       .mk (some "s__C") (some 1) false [idNodeTN "3" true]] =
      some (.mk none none false
        [.mk (some "d__A") (some 1) false [idNodeTN "1" false],
         .mk (some "d__B") (some 1) false
          [idNodeTN "2" false,
           .mk (some "s__C") (some 1) false [idNodeTN "3" true]]]) :=
  c8_walk_single_graft _ _ _ _
    ⟨by simp [TN.children], trivial⟩ (by simp [TN.name]) rfl

/-! ## Merge of two single-lineage trees (claim C2) -/

/-- The forest continuing a single-lineage (chain) sample tree: each rank
carries its identifier child first, then the next finer rank. -/
def chainFrom : List (String × String) → List TN
  | [] => []
  | e :: rest => [.mk (some e.1) (some 1) false (idNodeTN e.2 false :: chainFrom rest)]

/-- The rank node of a chain entry with the given continuation. -/
def nodeFor (e : String × String) (rest : List (String × String)) : TN :=
  .mk (some e.1) (some 1) false (idNodeTN e.2 false :: chainFrom rest)

/-- A single-lineage sample tree from (rank-name, taxon-id) pairs. -/
def chainTree (l : List (String × String)) : TN :=
  .mk none none false (chainFrom l)

/-- The expected merge of two chains sharing prefix `p` with divergent
suffixes `a` and `b`: one chain for `p`, both suffixes attached below it. -/
def mergedFrom : List (String × String) → List (String × String) →
    List (String × String) → List TN
  | [], a, b => chainFrom a ++ chainFrom b
  | e :: rest, a, b =>
    [.mk (some e.1) (some 1) false (idNodeTN e.2 false :: mergedFrom rest a b)]

def mergedTree (p a b : List (String × String)) : TN :=
  .mk none none false (mergedFrom p a b)

def keysOf : List (String × String) → List String
  | [] => []
  | e :: rest => e.1 :: e.2 :: keysOf rest

def idsOf (l : List (String × String)) : List String := l.map (fun e => e.2)

def namesOf (l : List (String × String)) : List String := l.map (fun e => e.1)

theorem keysOf_append (l1 l2 : List (String × String)) :
    keysOf (l1 ++ l2) = keysOf l1 ++ keysOf l2 := by
  induction l1 with
  | nil => simp [keysOf]
  | cons e r ih => simp [keysOf, ih]

theorem keysOf_perm (l : List (String × String)) :
    (keysOf l).Perm (namesOf l ++ idsOf l) := by
  induction l with
  | nil => simp [keysOf, namesOf, idsOf]
  | cons e r ih =>
    simp only [keysOf, namesOf, idsOf, List.map_cons, List.cons_append]
    refine ((ih.cons e.2).cons e.1).trans ?_
    exact List.Perm.cons e.1 (List.perm_middle).symm

theorem hasDup_eq_false_iff {l : List String} : hasDup l = false ↔ l.Nodup := by
  induction l with
  | nil => simp [hasDup]
  | cons x xs ih =>
    simp only [hasDup, Bool.or_eq_false_iff, ih, List.nodup_cons]
    constructor
    · rintro ⟨h1, h2⟩
      refine ⟨fun hm => ?_, h2⟩
      have hc : xs.contains x = true := List.elem_iff.2 hm
      rw [hc] at h1
      cases h1
    · rintro ⟨h1, h2⟩
      refine ⟨?_, h2⟩
      by_contra hc
      rw [Bool.not_eq_false] at hc
      exact h1 (List.elem_iff.1 hc)

theorem idsOf_append (l1 l2 : List (String × String)) :
    idsOf (l1 ++ l2) = idsOf l1 ++ idsOf l2 := by
  simp [idsOf]

/-- A keys-nodup list has nodup identifiers, nodup names, and the two are
disjoint. -/
theorem keys_nodup_parts {l : List (String × String)}
    (h : (keysOf l).Nodup) :
    (namesOf l).Nodup ∧ (idsOf l).Nodup ∧
      ∀ s, s ∈ namesOf l → s ∉ idsOf l := by
  have hp := ((keysOf_perm l).nodup_iff).1 h
  rw [List.nodup_append] at hp
  exact ⟨hp.1, hp.2.1, fun s hs hi => hp.2.2 hs hi⟩

/-- The parent chain of the first `b`-tip inside `chainTree (p ++ b)`:
the `p` rank nodes (whose subtrees continue into `b`), then the head `b`
rank node carrying the whole divergent suffix. -/
def pChainNodes : List (String × String) → List (String × String) → List TN
  | [], b =>
    match b with
    | [] => []
    | e :: brest => [nodeFor e brest]
  | e :: rest, b => nodeFor e (rest ++ b) :: pChainNodes rest b

/-- The path of the deepest rank node of a chain prefix. -/
def rankPathOf : List (String × String) → List Nat
  | [] => []
  | _ :: rest => 0 :: List.replicate rest.length 1

theorem rankPathOf_snoc (done : List (String × String)) (q : String × String) :
    rankPathOf (done ++ [q]) = 0 :: List.replicate done.length 1 := by
  cases done with
  | nil => rfl
  | cons d0 d' => simp [rankPathOf, List.replicate_succ]

/-- Collect, over a tree's postorder entries, an extractor's output on the
nodes satisfying a predicate: the common shape of `leafNames` and
`nonTipNames`. -/
def collect (pred : TN → Bool) (ex : TN → Option String) (t : TN) : List String :=
  ((entries t).filter (fun e => pred e.1)).filterMap (fun e => ex e.1)

theorem leafNames_eq_collect (t : TN) :
    leafNames t = collect (fun z => z.children.isEmpty) TN.name t := rfl

theorem nonTipNames_eq_collect (t : TN) :
    nonTipNames t = collect (fun z => !z.children.isEmpty) TN.name t := rfl

theorem collect_entries_map {pred : TN → Bool} {ex : TN → Option String}
    (l : List (TN × List Nat)) (g : List Nat → List Nat) :
    ((l.map (fun e => (e.1, g e.2))).filter (fun e => pred e.1)).filterMap
        (fun e => ex e.1) =
      (l.filter (fun e => pred e.1)).filterMap (fun e => ex e.1) := by
  induction l with
  | nil => rfl
  | cons e r ih =>
    simp only [List.map_cons, List.filter_cons]
    by_cases hp : pred e.1 = true
    · simp only [hp, if_true, List.filterMap_cons]
      rw [ih]
    · simp only [hp, if_false, Bool.false_eq_true]
      exact ih

theorem collect_entriesOfL (pred : TN → Bool) (ex : TN → Option String) :
    ∀ (cs : List TN) (k : Nat),
      ((TN.entriesOfL cs k).filter (fun e => pred e.1)).filterMap (fun e => ex e.1) =
        (cs.map (collect pred ex)).flatten := by
  intro cs
  induction cs with
  | nil => intro k; rfl
  | cons c ts ih =>
    intro k
    rw [TN.entriesOfL, List.filter_append, List.filterMap_append,
      collect_entries_map, ih (k + 1)]
    simp only [List.map_cons, List.flatten_cons]
    rfl

theorem collect_mk (pred : TN → Bool) (ex : TN → Option String)
    (n : Option String) (l : Option Nat) (f : Bool) (cs : List TN) :
    collect pred ex (.mk n l f cs) =
      (cs.map (collect pred ex)).flatten ++
        (if pred (.mk n l f cs) then (ex (.mk n l f cs)).toList else []) := by
  rw [collect, entries, TN.entriesOf, List.filter_append, List.filterMap_append,
    collect_entriesOfL]
  congr 1
  by_cases hp : pred (.mk n l f cs) = true
  · rw [if_pos hp]
    have hflt : List.filter (fun e => pred e.1) [(TN.mk n l f cs, ([] : List Nat))] =
        [(TN.mk n l f cs, [])] := by
      simp [List.filter_cons, hp]
    rw [hflt]
    rcases hex : ex (.mk n l f cs) with _ | s
    · simp [List.filterMap_cons, hex, Option.toList]
    · simp [List.filterMap_cons, hex, Option.toList]
  · rw [if_neg hp]
    have hflt : List.filter (fun e => pred e.1) [(TN.mk n l f cs, ([] : List Nat))] =
        [] := by
      simp only [List.filter_cons, List.filter_nil]
      rw [if_neg hp]
    rw [hflt]
    rfl

/-- `leafNames` summed over a forest. -/
def leafNamesL (cs : List TN) : List String := (cs.map leafNames).flatten

/-- `nonTipNames` summed over a forest. -/
def nonTipNamesL (cs : List TN) : List String := (cs.map nonTipNames).flatten

theorem leafNamesL_cons (c : TN) (cs : List TN) :
    leafNamesL (c :: cs) = leafNames c ++ leafNamesL cs := by
  simp [leafNamesL]

theorem leafNamesL_append (l1 l2 : List TN) :
    leafNamesL (l1 ++ l2) = leafNamesL l1 ++ leafNamesL l2 := by
  simp [leafNamesL]

theorem leafNames_mk_cons (n : Option String) (l : Option Nat) (f : Bool)
    (c : TN) (cs : List TN) :
    leafNames (.mk n l f (c :: cs)) = leafNamesL (c :: cs) := by
  rw [leafNames_eq_collect, collect_mk, if_neg (by simp [TN.children])]
  rw [List.append_nil]
  rfl

theorem leafNames_unnamed (l : Option Nat) (f : Bool) (cs : List TN) :
    leafNames (.mk none l f cs) = leafNamesL cs := by
  rw [leafNames_eq_collect, collect_mk]
  have hn : (TN.name (.mk none l f cs)).toList = [] := rfl
  rw [hn]
  split_ifs <;> simp <;> rfl

theorem leafNames_idNodeTN (i : String) (b : Bool) :
    leafNames (idNodeTN i b) = [i] := rfl

theorem nonTipNamesL_cons (c : TN) (cs : List TN) :
    nonTipNamesL (c :: cs) = nonTipNames c ++ nonTipNamesL cs := by
  simp [nonTipNamesL]

theorem nonTipNames_mk_cons (n : Option String) (l : Option Nat) (f : Bool)
    (c : TN) (cs : List TN) :
    nonTipNames (.mk n l f (c :: cs)) = nonTipNamesL (c :: cs) ++ n.toList := by
  rw [nonTipNames_eq_collect, collect_mk, if_pos (by simp [TN.children])]
  rfl

theorem nonTipNames_unnamed (l : Option Nat) (f : Bool) (cs : List TN) :
    nonTipNames (.mk none l f cs) = nonTipNamesL cs := by
  rw [nonTipNames_eq_collect, collect_mk]
  have hn : (TN.name (.mk none l f cs)).toList = [] := rfl
  rw [hn]
  split_ifs <;> simp <;> rfl

theorem nonTipNames_idNodeTN (i : String) (b : Bool) :
    nonTipNames (idNodeTN i b) = [] := rfl

theorem leafNamesL_chainFrom : ∀ L : List (String × String),
    leafNamesL (chainFrom L) = idsOf L := by
  intro L
  induction L with
  | nil => rfl
  | cons e rest ih =>
    rw [chainFrom, leafNamesL_cons]
    show leafNames (.mk (some e.1) (some 1) false
      (idNodeTN e.2 false :: chainFrom rest)) ++ leafNamesL [] = idsOf (e :: rest)
    rw [leafNames_mk_cons, leafNamesL_cons, leafNames_idNodeTN, ih]
    simp [leafNamesL, idsOf]

theorem leafNames_chainTree (L : List (String × String)) :
    leafNames (chainTree L) = idsOf L := by
  rw [chainTree, leafNames_unnamed, leafNamesL_chainFrom]

theorem leafNamesL_mergedFrom : ∀ (p a b : List (String × String)),
    leafNamesL (mergedFrom p a b) = idsOf p ++ (idsOf a ++ idsOf b) := by
  intro p a b
  induction p with
  | nil =>
    rw [mergedFrom, leafNamesL_append, leafNamesL_chainFrom, leafNamesL_chainFrom]
    rfl
  | cons q p2 ih =>
    rw [mergedFrom, leafNamesL_cons]
    show leafNames (.mk (some q.1) (some 1) false
      (idNodeTN q.2 false :: mergedFrom p2 a b)) ++ leafNamesL [] = _
    rw [leafNames_mk_cons, leafNamesL_cons, leafNames_idNodeTN, ih]
    simp [leafNamesL, idsOf]

theorem leafNames_mergedTree (p a b : List (String × String)) :
    leafNames (mergedTree p a b) = idsOf p ++ (idsOf a ++ idsOf b) := by
  rw [mergedTree, leafNames_unnamed, leafNamesL_mergedFrom]

theorem mem_nonTipNamesL_chainFrom : ∀ (L : List (String × String)) (s : String),
    s ∈ nonTipNamesL (chainFrom L) → s ∈ namesOf L := by
  intro L
  induction L with
  | nil => intro s hs; simp [chainFrom, nonTipNamesL] at hs
  | cons e rest ih =>
    intro s hs
    rw [chainFrom, nonTipNamesL_cons] at hs
    rcases List.mem_append.1 hs with hs | hs
    · rw [nonTipNames_mk_cons, nonTipNamesL_cons, nonTipNames_idNodeTN] at hs
      simp only [List.nil_append] at hs
      rcases List.mem_append.1 hs with hs | hs
      · have := ih s hs
        simp only [namesOf, List.map_cons, List.mem_cons]
        right
        simpa [namesOf] using this
      · simp only [Option.toList, List.mem_singleton] at hs
        simp [namesOf, hs]
    · simp [nonTipNamesL] at hs

theorem mem_nonTipNames_chainTree {L : List (String × String)} {s : String}
    (h : s ∈ nonTipNames (chainTree L)) : s ∈ namesOf L := by
  rw [chainTree, nonTipNames_unnamed] at h
  exact mem_nonTipNamesL_chainFrom L s h

/-- The postorder entry list of the forest of a chain (paths relative to the
chain's root). -/
def chainEntriesOf : List (String × String) → List (TN × List Nat)
  | [] => []
  | e :: rest =>
    (idNodeTN e.2 false, [0]) ::
      ((chainEntriesOf rest).map (fun x => (x.1, 1 :: x.2)) ++ [(nodeFor e rest, [])])

theorem entriesOf_mk (n : Option String) (l : Option Nat) (f : Bool)
    (cs : List TN) :
    (TN.mk n l f cs).entriesOf = TN.entriesOfL cs 0 ++ [(.mk n l f cs, [])] := by
  rw [TN.entriesOf]

theorem entriesOfL_nil (i : Nat) : TN.entriesOfL [] i = [] := by
  rw [TN.entriesOfL]

theorem entriesOfL_cons (t : TN) (ts : List TN) (i : Nat) :
    TN.entriesOfL (t :: ts) i =
      (TN.entriesOf t).map (fun e => (e.1, i :: e.2)) ++ TN.entriesOfL ts (i + 1) := by
  rw [TN.entriesOfL]

theorem entriesOf_nodeFor : ∀ (rest : List (String × String)) (e : String × String),
    (nodeFor e rest).entriesOf = chainEntriesOf (e :: rest) := by
  intro rest
  induction rest with
  | nil => intro e; rfl
  | cons e2 r2 ih =>
    intro e
    show (TN.mk (some e.1) (some 1) false
      (idNodeTN e.2 false :: chainFrom (e2 :: r2))).entriesOf = _
    rw [entriesOf_mk, entriesOfL_cons,
      show chainFrom (e2 :: r2) = [nodeFor e2 r2] from rfl, entriesOfL_cons,
      entriesOfL_nil, ih e2]
    rw [chainEntriesOf]
    simp only [List.append_nil, List.cons_append, List.nil_append]
    rfl

theorem entries_chainTree (L : List (String × String)) :
    entries (chainTree L) =
      (chainEntriesOf L).map (fun x => (x.1, 0 :: x.2)) ++ [(chainTree L, [])] := by
  cases L with
  | nil => rfl
  | cons e rest =>
    show (TN.mk none none false (chainFrom (e :: rest))).entriesOf = _
    rw [entriesOf_mk, show chainFrom (e :: rest) = [nodeFor e rest] from rfl,
      entriesOfL_cons, entriesOfL_nil, entriesOf_nodeFor]
    simp [chainTree, chainFrom, nodeFor]

/-- The identifier-leaf entries of a chain forest, in postorder. -/
def chainIdEntries : List (String × String) → List (TN × List Nat)
  | [] => []
  | e :: rest =>
    (idNodeTN e.2 false, [0]) :: (chainIdEntries rest).map (fun x => (x.1, 1 :: x.2))

/-- The rank-node entries of a chain forest, in postorder (deepest first). -/
def chainRankEntries : List (String × String) → List (TN × List Nat)
  | [] => []
  | e :: rest =>
    (chainRankEntries rest).map (fun x => (x.1, 1 :: x.2)) ++ [(nodeFor e rest, [])]

theorem filter_leaf_chainEntriesOf : ∀ L : List (String × String),
    (chainEntriesOf L).filter (fun e => e.1.children.isEmpty) = chainIdEntries L := by
  intro L
  induction L with
  | nil => rfl
  | cons e rest ih =>
    rw [chainEntriesOf, chainIdEntries, List.filter_cons,
      if_pos (by simp [idNodeTN, TN.children]), List.filter_append, List.filter_map]
    have hcomp : ((fun e : TN × List Nat => e.1.children.isEmpty) ∘
        (fun x : TN × List Nat => (x.1, 1 :: x.2))) =
        (fun e : TN × List Nat => e.1.children.isEmpty) := rfl
    rw [hcomp, ih, List.filter_cons,
      if_neg (by simp [nodeFor, TN.children]), List.filter_nil, List.append_nil]

theorem filter_nonleaf_chainEntriesOf : ∀ L : List (String × String),
    (chainEntriesOf L).filter (fun e => !e.1.children.isEmpty) =
      chainRankEntries L := by
  intro L
  induction L with
  | nil => rfl
  | cons e rest ih =>
    rw [chainEntriesOf, chainRankEntries, List.filter_cons,
      if_neg (by simp [idNodeTN, TN.children]), List.filter_append, List.filter_map]
    have hcomp : ((fun e : TN × List Nat => !e.1.children.isEmpty) ∘
        (fun x : TN × List Nat => (x.1, 1 :: x.2))) =
        (fun e : TN × List Nat => !e.1.children.isEmpty) := rfl
    rw [hcomp, ih, List.filter_cons,
      if_pos (by simp [nodeFor, TN.children]), List.filter_nil]

theorem tipsOf_chainTree (L : List (String × String)) :
    tipsOf (chainTree L) = (chainIdEntries L).map (fun x => (x.1, 0 :: x.2)) := by
  cases L with
  | nil => rfl
  | cons e rest =>
    rw [tipsOf, leafEntries, entries_chainTree, List.filter_append, List.filter_map]
    have hcomp : ((fun e : TN × List Nat => e.1.children.isEmpty) ∘
        (fun x : TN × List Nat => (x.1, 0 :: x.2))) =
        (fun e : TN × List Nat => e.1.children.isEmpty) := rfl
    rw [hcomp, filter_leaf_chainEntriesOf, List.filter_cons,
      if_neg (by simp [chainTree, TN.children, chainFrom]), List.filter_nil,
      List.append_nil, List.filter_map]
    have hcomp2 : ((fun e : TN × List Nat => !e.2.isEmpty) ∘
        (fun x : TN × List Nat => (x.1, 0 :: x.2))) =
        (fun _ : TN × List Nat => true) := rfl
    rw [hcomp2, List.filter_true]

theorem nonTipEntries_chainTree (L : List (String × String)) (hL : L ≠ []) :
    nonTipEntries (chainTree L) =
      (chainRankEntries L).map (fun x => (x.1, 0 :: x.2)) ++ [(chainTree L, [])] := by
  rw [nonTipEntries, entries_chainTree, List.filter_append, List.filter_map]
  have hcomp : ((fun e : TN × List Nat => !e.1.children.isEmpty) ∘
      (fun x : TN × List Nat => (x.1, 0 :: x.2))) =
      (fun e : TN × List Nat => !e.1.children.isEmpty) := rfl
  rw [hcomp, filter_nonleaf_chainEntriesOf, List.filter_cons]
  cases L with
  | nil => exact absurd rfl hL
  | cons e rest =>
    rw [if_pos (by simp [chainTree, TN.children, chainFrom]), List.filter_nil]

theorem chainIdEntries_shape : ∀ (L : List (String × String))
    (x : TN × List Nat), x ∈ chainIdEntries L →
    ∃ i, i ∈ idsOf L ∧ x.1 = idNodeTN i false := by
  intro L
  induction L with
  | nil => intro x hx; simp [chainIdEntries] at hx
  | cons e rest ih =>
    intro x hx
    rw [chainIdEntries] at hx
    rcases List.mem_cons.1 hx with hx | hx
    · exact ⟨e.2, by simp [idsOf], by rw [hx]⟩
    · rcases List.mem_map.1 hx with ⟨y, hy, hxy⟩
      rcases ih y hy with ⟨i, hi, hy1⟩
      exact ⟨i, by simp [idsOf] at hi ⊢; right; exact hi, by rw [← hxy]; exact hy1⟩

theorem chainIdEntries_append : ∀ (p b : List (String × String)),
    chainIdEntries (p ++ b) =
      chainIdEntries p ++
        (chainIdEntries b).map (fun x => (x.1, List.replicate p.length 1 ++ x.2)) := by
  intro p b
  induction p with
  | nil => simp [chainIdEntries]
  | cons q p2 ih =>
    rw [List.cons_append, chainIdEntries, ih, chainIdEntries]
    simp only [List.map_append, List.map_map, List.cons_append, List.length_cons,
      List.cons.injEq, true_and]
    congr 1

theorem mem_keysOf_of_mem_idsOf {L : List (String × String)} {s : String}
    (h : s ∈ idsOf L) : s ∈ keysOf L :=
  (keysOf_perm L).mem_iff.2 (List.mem_append.2 (Or.inr h))

theorem mem_keysOf_of_mem_namesOf {L : List (String × String)} {s : String}
    (h : s ∈ namesOf L) : s ∈ keysOf L :=
  (keysOf_perm L).mem_iff.2 (List.mem_append.2 (Or.inl h))

theorem findIn_missing_of_not_mem {t : TN} {s : String}
    (hd : hasDup (leafNames t) = false)
    (h1 : s ∉ leafNames t) (h2 : s ∉ nonTipNames t) :
    findIn t (some s) = some none := by
  rw [findIn, if_neg (by simp [hd])]
  have hf1 : (leafEntries t).find? (fun e => decide (e.1.name = some s)) = none := by
    rw [List.find?_eq_none]
    intro e he
    simp only [decide_eq_true_eq]
    intro hn
    exact h1 (mem_leafNames_of_entry he hn)
  have hf2 : (nonTipEntries t).find? (fun e => decide (e.1.name = some s)) = none := by
    rw [List.find?_eq_none]
    intro e he
    simp only [decide_eq_true_eq]
    intro hn
    exact h2 (List.mem_filterMap.2 ⟨e, he, hn⟩)
  rw [hf1, hf2]

theorem chainRank_names_bound : ∀ (L : List (String × String))
    (x : TN × List Nat), x ∈ chainRankEntries L →
    ∀ s, x.1.name = some s → s ∈ namesOf L := by
  intro L
  induction L with
  | nil => intro x hx; simp [chainRankEntries] at hx
  | cons e rest ih =>
    intro x hx s hs
    rw [chainRankEntries] at hx
    rcases List.mem_append.1 hx with hx | hx
    · rcases List.mem_map.1 hx with ⟨y, hy, hxy⟩
      have : y.1.name = some s := by rw [← hxy] at hs; exact hs
      have := ih y hy s this
      simp [namesOf] at this ⊢
      right
      exact this
    · rcases List.mem_singleton.1 hx with rfl
      have : e.1 = s := by
        simp only [nodeFor, TN.name, Option.some_inj] at hs
        exact hs
      simp [namesOf, this]

theorem find?_chainRankEntries_none (L : List (String × String)) (s : String)
    (hs : s ∉ namesOf L) :
    (chainRankEntries L).find? (fun x => decide (x.1.name = some s)) = none := by
  rw [List.find?_eq_none]
  intro x hx
  simp only [decide_eq_true_eq]
  intro hn
  exact hs (chainRank_names_bound L x hx s hn)

theorem find?_chainRankEntries : ∀ (pre : List (String × String))
    (e : String × String) (suf : List (String × String)),
    e.1 ∉ namesOf pre → e.1 ∉ namesOf suf →
    (chainRankEntries (pre ++ e :: suf)).find?
        (fun x => decide (x.1.name = some e.1)) =
      some (nodeFor e suf, List.replicate pre.length 1) := by
  intro pre
  induction pre with
  | nil =>
    intro e suf _ hsuf
    rw [List.nil_append, chainRankEntries, List.find?_append, List.find?_map]
    have hcomp : ((fun x : TN × List Nat => decide (x.1.name = some e.1)) ∘
        (fun x : TN × List Nat => (x.1, 1 :: x.2))) =
        (fun x : TN × List Nat => decide (x.1.name = some e.1)) := rfl
    rw [hcomp, find?_chainRankEntries_none suf e.1 hsuf]
    simp [List.find?, nodeFor, TN.name]
  | cons q pre2 ih =>
    intro e suf hpre hsuf
    have hq : e.1 ∉ namesOf pre2 := by
      intro hc
      exact hpre (by simp [namesOf] at hc ⊢; right; exact hc)
    rw [List.cons_append, chainRankEntries, List.find?_append, List.find?_map]
    have hcomp : ((fun x : TN × List Nat => decide (x.1.name = some e.1)) ∘
        (fun x : TN × List Nat => (x.1, 1 :: x.2))) =
        (fun x : TN × List Nat => decide (x.1.name = some e.1)) := rfl
    rw [hcomp, ih e suf hq hsuf]
    simp [List.replicate_succ]

theorem findIn_chain_rank (pre : List (String × String)) (e : String × String)
    (suf : List (String × String))
    (hnd : (keysOf (pre ++ e :: suf)).Nodup) :
    findIn (chainTree (pre ++ e :: suf)) (some e.1) =
      some (some (0 :: List.replicate pre.length 1)) := by
  have hparts := keys_nodup_parts hnd
  have hdup : hasDup (leafNames (chainTree (pre ++ e :: suf))) = false := by
    rw [leafNames_chainTree]
    exact hasDup_eq_false_iff.2 hparts.2.1
  have hename : e.1 ∈ namesOf (pre ++ e :: suf) := by simp [namesOf]
  rw [findIn, if_neg (by simp [hdup])]
  have hf1 : (leafEntries (chainTree (pre ++ e :: suf))).find?
      (fun x => decide (x.1.name = some e.1)) = none := by
    rw [List.find?_eq_none]
    intro x hx
    simp only [decide_eq_true_eq]
    intro hn
    have hmem : e.1 ∈ leafNames (chainTree (pre ++ e :: suf)) :=
      mem_leafNames_of_entry hx hn
    rw [leafNames_chainTree] at hmem
    exact hparts.2.2 e.1 hename hmem
  rw [hf1]
  rw [nonTipEntries_chainTree _ (by simp), List.find?_append, List.find?_map]
  have hcomp : ((fun x : TN × List Nat => decide (x.1.name = some e.1)) ∘
      (fun x : TN × List Nat => (x.1, 0 :: x.2))) =
      (fun x : TN × List Nat => decide (x.1.name = some e.1)) := rfl
  have hnmnd := hparts.1
  have hsplit : namesOf (pre ++ e :: suf) = namesOf pre ++ e.1 :: namesOf suf := by
    simp [namesOf]
  rw [hsplit] at hnmnd
  rcases List.nodup_append.1 hnmnd with ⟨hn1, hn2, hdisj⟩
  have hpre : e.1 ∉ namesOf pre := fun hc => (hdisj hc) (by simp)
  have hsuf : e.1 ∉ namesOf suf := (List.nodup_cons.1 hn2).1
  rw [hcomp, find?_chainRankEntries pre e suf hpre hsuf]
  simp

/-- The forest obtained by grafting `sub` below the deepest rank of a chain
prefix `p` whose own continuation is `a`. -/
def graftFrom : List (String × String) → List (String × String) → TN → List TN
  | [], a, sub => chainFrom a ++ [sub]
  | e :: rest, a, sub =>
    [.mk (some e.1) (some 1) false (idNodeTN e.2 false :: graftFrom rest a sub)]

theorem graftFrom_merged : ∀ (p a : List (String × String)) (e : String × String)
    (brest : List (String × String)),
    graftFrom p a (nodeFor e brest) = mergedFrom p a (e :: brest) := by
  intro p a e brest
  induction p with
  | nil => rfl
  | cons q p2 ih => rw [graftFrom, mergedFrom, ih]

theorem appendAt_graft_aux : ∀ (d a : List (String × String))
    (q : String × String) (sub : TN),
    appendAt (nodeFor q (d ++ a)) (List.replicate d.length 1) sub =
      some (.mk (some q.1) (some 1) false (idNodeTN q.2 false :: graftFrom d a sub)) := by
  intro d
  induction d with
  | nil =>
    intro a q sub
    simp [appendAt, nodeFor, TN.appendChild, graftFrom]
  | cons d0 d2 ih =>
    intro a q sub
    rw [List.length_cons, List.replicate_succ]
    show appendAt (.mk (some q.1) (some 1) false
      (idNodeTN q.2 false :: chainFrom ((d0 :: d2) ++ a)))
      (1 :: List.replicate d2.length 1) sub = _
    rw [show chainFrom ((d0 :: d2) ++ a) = [nodeFor d0 (d2 ++ a)] from rfl]
    simp only [appendAt, List.getElem?_cons_succ, List.getElem?_cons_zero,
      ih a d0 sub]
    simp [graftFrom, List.set]

theorem appendAt_chainTree (p a : List (String × String)) (sub : TN) :
    appendAt (chainTree (p ++ a)) (rankPathOf p) sub =
      some (.mk none none false (graftFrom p a sub)) := by
  cases p with
  | nil => simp [rankPathOf, appendAt, chainTree, TN.appendChild, graftFrom]
  | cons q d2 =>
    rw [rankPathOf]
    show appendAt (.mk none none false (chainFrom ((q :: d2) ++ a)))
      (0 :: List.replicate d2.length 1) sub = _
    rw [show chainFrom ((q :: d2) ++ a) = [nodeFor q (d2 ++ a)] from rfl]
    simp only [appendAt, List.getElem?_cons_zero, appendAt_graft_aux d2 a q sub]
    simp [graftFrom, List.set]

theorem chainNodes_step (n : Option String) (l : Option Nat) (f : Bool)
    (cs : List TN) (i : Nat) (p : List Nat) :
    chainNodes (.mk n l f cs) (i :: p) =
      match cs[i]? with
      | none => []
      | some c => if p.isEmpty then [] else c :: chainNodes c p := by
  simp only [chainNodes, TN.children]

theorem chainNodes_aux : ∀ (pr : List (String × String)) (x : String × String)
    (e : String × String) (brest : List (String × String)),
    chainNodes (nodeFor x (pr ++ e :: brest))
        (List.replicate (pr.length + 1) 1 ++ [0]) =
      pChainNodes pr (e :: brest) := by
  intro pr
  induction pr with
  | nil =>
    intro x e brest
    show chainNodes (.mk (some x.1) (some 1) false
      (idNodeTN x.2 false :: chainFrom (e :: brest))) [1, 0] = _
    rw [show chainFrom (e :: brest) = [nodeFor e brest] from rfl]
    rw [chainNodes_step]
    simp only [List.getElem?_cons_succ, List.getElem?_cons_zero]
    rw [if_neg (by simp)]
    rw [show nodeFor e brest = .mk (some e.1) (some 1) false
      (idNodeTN e.2 false :: chainFrom brest) from rfl, chainNodes_step]
    simp [pChainNodes, nodeFor]
  | cons r0 r2 ih =>
    intro x e brest
    rw [List.length_cons]
    rw [show List.replicate (r2.length + 1 + 1) 1 ++ [0] =
      1 :: (List.replicate (r2.length + 1) 1 ++ [0]) from by
        simp [List.replicate_succ]]
    show chainNodes (.mk (some x.1) (some 1) false
      (idNodeTN x.2 false :: chainFrom ((r0 :: r2) ++ e :: brest)))
      (1 :: (List.replicate (r2.length + 1) 1 ++ [0])) = _
    rw [show chainFrom ((r0 :: r2) ++ e :: brest) =
      [nodeFor r0 (r2 ++ e :: brest)] from rfl]
    rw [chainNodes_step]
    simp only [List.getElem?_cons_succ, List.getElem?_cons_zero]
    rw [if_neg (by simp [List.replicate_succ]), ih r0 e brest]
    simp [pChainNodes]

theorem chainNodes_chainTree (p : List (String × String)) (e : String × String)
    (brest : List (String × String)) :
    chainNodes (chainTree (p ++ e :: brest))
        (0 :: (List.replicate p.length 1 ++ [0])) =
      pChainNodes p (e :: brest) := by
  cases p with
  | nil =>
    show chainNodes (.mk none none false (chainFrom (e :: brest))) [0, 0] = _
    rw [show chainFrom (e :: brest) = [nodeFor e brest] from rfl]
    rw [chainNodes_step]
    simp only [List.getElem?_cons_zero]
    rw [if_neg (by simp)]
    rw [show nodeFor e brest = .mk (some e.1) (some 1) false
      (idNodeTN e.2 false :: chainFrom brest) from rfl, chainNodes_step]
    simp [pChainNodes, nodeFor]
  | cons q p2 =>
    rw [List.length_cons, List.replicate_succ]
    show chainNodes (.mk none none false (chainFrom ((q :: p2) ++ e :: brest)))
      (0 :: (1 :: (List.replicate p2.length 1 ++ [0]))) = _
    rw [show chainFrom ((q :: p2) ++ e :: brest) =
      [nodeFor q (p2 ++ e :: brest)] from rfl]
    rw [chainNodes_step]
    simp only [List.getElem?_cons_zero]
    rw [if_neg (by simp)]
    have h2 : (1 :: (List.replicate p2.length 1 ++ [0])) =
        List.replicate (p2.length + 1) 1 ++ [0] := by
      simp [List.replicate_succ]
    rw [h2, chainNodes_aux p2 q e brest]
    simp [pChainNodes]

/-- The `while parents:` walk of a chain-tip merge: descending through the
shared prefix, each rank is found by name; the first divergent rank is
missing, so its whole subtree is grafted at the current insertion point. -/
theorem walk_chain : ∀ (todo done a : List (String × String))
    (e : String × String) (brest : List (String × String)),
    (keysOf (((done ++ todo) ++ a) ++ (e :: brest))).Nodup →
    goWalk (chainTree ((done ++ todo) ++ a)) (rankPathOf done)
        (pChainNodes todo (e :: brest)) =
      some (mergedTree (done ++ todo) a (e :: brest)) := by
  intro todo
  induction todo with
  | nil =>
    intro done a e brest hnd
    rw [List.append_nil] at hnd ⊢
    rw [show pChainNodes [] (e :: brest) = [nodeFor e brest] from rfl]
    rw [keysOf_append] at hnd
    rcases List.nodup_append.1 hnd with ⟨ndX, _, disj⟩
    have he1b : e.1 ∈ keysOf (e :: brest) := by simp [keysOf]
    have hd : hasDup (leafNames (chainTree (done ++ a))) = false := by
      rw [leafNames_chainTree]
      exact hasDup_eq_false_iff.2 (keys_nodup_parts ndX).2.1
    have h1 : e.1 ∉ leafNames (chainTree (done ++ a)) := by
      rw [leafNames_chainTree]
      intro hc
      exact disj (mem_keysOf_of_mem_idsOf hc) he1b
    have h2 : e.1 ∉ nonTipNames (chainTree (done ++ a)) := by
      intro hc
      exact disj (mem_keysOf_of_mem_namesOf (mem_nonTipNames_chainTree hc)) he1b
    have hfind := findIn_missing_of_not_mem hd h1 h2
    have hname : (nodeFor e brest).name = some e.1 := rfl
    have happ : appendAt (chainTree (done ++ a)) (rankPathOf done) (nodeFor e brest)
        = some (mergedTree done a (e :: brest)) := by
      rw [appendAt_chainTree, graftFrom_merged]
      rfl
    simp only [goWalk, hname, hfind, happ]
  | cons q todo2 ih =>
    intro done a e brest hnd
    rw [show pChainNodes (q :: todo2) (e :: brest)
        = nodeFor q (todo2 ++ e :: brest) :: pChainNodes todo2 (e :: brest) from rfl]
    have hassoc : (done ++ q :: todo2) ++ a = done ++ q :: (todo2 ++ a) := by simp
    have hnd1 : (keysOf (done ++ q :: (todo2 ++ a))).Nodup := by
      rw [← hassoc]
      rw [keysOf_append] at hnd
      exact (List.nodup_append.1 hnd).1
    have hname : (nodeFor q (todo2 ++ e :: brest)).name = some q.1 := rfl
    have hfind : findIn (chainTree ((done ++ q :: todo2) ++ a)) (some q.1)
        = some (some (0 :: List.replicate done.length 1)) := by
      rw [hassoc]
      exact findIn_chain_rank done q (todo2 ++ a) hnd1
    have hre : done ++ q :: todo2 = (done ++ [q]) ++ todo2 :=
      List.append_cons done q todo2
    simp only [goWalk, hname, hfind]
    rw [show (0 :: List.replicate done.length 1) = rankPathOf (done ++ [q]) from
      (rankPathOf_snoc done q).symm, hre]
    exact ih (done ++ [q]) a e brest (by rw [← hre]; exact hnd)

/-- Merging a chain donor into a chain accumulator with the shared prefix
`p`: the prefix tips are found and skipped, the first divergent tip grafts
the whole divergent suffix, and the remaining donor tips (already grafted)
are skipped. -/
theorem mergeOne_chains (p a : List (String × String)) (e : String × String)
    (brest : List (String × String))
    (hnd : (keysOf ((p ++ a) ++ (e :: brest))).Nodup) :
    mergeOne (chainTree (p ++ a)) (chainTree (p ++ e :: brest)) =
      some (mergedTree p a (e :: brest)) := by
  have hndPA : (keysOf (p ++ a)).Nodup := by
    rw [keysOf_append] at hnd
    exact (List.nodup_append.1 hnd).1
  have disj : ∀ x ∈ keysOf (p ++ a), x ∉ keysOf (e :: brest) := by
    rw [keysOf_append] at hnd
    exact fun x hx => (List.nodup_append.1 hnd).2.2 hx
  have hd1 : hasDup (leafNames (chainTree (p ++ a))) = false := by
    rw [leafNames_chainTree]
    exact hasDup_eq_false_iff.2 (keys_nodup_parts hndPA).2.1
  have hA : ∀ x ∈ (chainIdEntries p).map (fun y => (y.1, 0 :: y.2)),
      processTip (chainTree (p ++ e :: brest)) (chainTree (p ++ a)) x
        = some (chainTree (p ++ a)) := by
    intro x hx
    rcases List.mem_map.1 hx with ⟨y, hy, hxy⟩
    rcases chainIdEntries_shape p y hy with ⟨i, hi, hy1⟩
    have hxname : x.1.name = some i := by
      rw [← hxy]
      simp [hy1, idNodeTN, TN.name]
    apply processTip_skip hd1 hxname
    rw [leafNames_chainTree, idsOf_append]
    exact List.mem_append.2 (Or.inl hi)
  have hetip : processTip (chainTree (p ++ e :: brest)) (chainTree (p ++ a))
      (idNodeTN e.2 false, 0 :: (List.replicate p.length 1 ++ [0]))
      = some (mergedTree p a (e :: brest)) := by
    have hname : (idNodeTN e.2 false).name = some e.2 := rfl
    have he2b : e.2 ∈ keysOf (e :: brest) := by simp [keysOf]
    have h1 : e.2 ∉ leafNames (chainTree (p ++ a)) := by
      rw [leafNames_chainTree]
      intro hc
      exact disj e.2 (mem_keysOf_of_mem_idsOf hc) he2b
    have h2 : e.2 ∉ nonTipNames (chainTree (p ++ a)) := by
      intro hc
      exact disj e.2 (mem_keysOf_of_mem_namesOf (mem_nonTipNames_chainTree hc)) he2b
    have hfind := findIn_missing_of_not_mem hd1 h1 h2
    have hchain := chainNodes_chainTree p e brest
    have hwalk := walk_chain p [] a e brest (by simpa using hnd)
    simp only [List.nil_append] at hwalk
    simp only [processTip, hname, hfind, hchain]
    simpa [rankPathOf] using hwalk
  have hd2 : hasDup (leafNames (mergedTree p a (e :: brest))) = false := by
    rw [leafNames_mergedTree]
    apply hasDup_eq_false_iff.2
    have hids := (keys_nodup_parts hnd).2.1
    rw [idsOf_append, idsOf_append] at hids
    simpa [List.append_assoc] using hids
  have hB : ∀ x ∈ ((((chainIdEntries brest).map (fun y => (y.1, 1 :: y.2))).map
        (fun y => (y.1, List.replicate p.length 1 ++ y.2))).map
          (fun y => (y.1, 0 :: y.2))),
      processTip (chainTree (p ++ e :: brest)) (mergedTree p a (e :: brest)) x
        = some (mergedTree p a (e :: brest)) := by
    intro x hx
    rcases List.mem_map.1 hx with ⟨y2, hy2, hxy⟩
    rcases List.mem_map.1 hy2 with ⟨y1, hy1, hy12⟩
    rcases List.mem_map.1 hy1 with ⟨y0, hy0, hy01⟩
    rcases chainIdEntries_shape brest y0 hy0 with ⟨i, hi, hy0n⟩
    have hxname : x.1.name = some i := by
      rw [← hxy, ← hy12, ← hy01]
      simp [hy0n, idNodeTN, TN.name]
    apply processTip_skip hd2 hxname
    rw [leafNames_mergedTree]
    refine List.mem_append.2 (Or.inr (List.mem_append.2 (Or.inr ?_)))
    simp only [idsOf, List.map_cons, List.mem_cons]
    right
    exact hi
  rw [mergeOne, tipsOf_chainTree, chainIdEntries_append,
    show chainIdEntries (e :: brest) = (idNodeTN e.2 false, [0]) ::
      (chainIdEntries brest).map (fun y => (y.1, 1 :: y.2)) from rfl]
  simp only [List.map_cons, List.map_append, List.foldlM_append, List.foldlM_cons]
  rw [fold_processTip_skip _ _ hA]
  simp only [Option.bind_eq_bind, Option.some_bind]
  rw [hetip]
  simp only [Option.bind_eq_bind, Option.some_bind]
  exact fold_processTip_skip _ _ hB

/-- **C2 (amended).** Two single-lineage sample trees that share an initial
(rank-name, taxon-id)-identical prefix `p` and then diverge, all remaining
names and ids being pairwise distinct, merge into a single tree with one
copy of the shared prefix chain and both divergent suffixes attached below
its deepest rank. (The original claim — that the combined tree's tip set is
the union of the samples' tip sets — fails: a donor tip whose id is new but
all of whose ancestor names already exist is silently dropped, see the
counterexample.) -/
theorem c2_shared_prefix_merge (p a brest : List (String × String))
    (e : String × String)
    (hnd : (keysOf ((p ++ a) ++ (e :: brest))).Nodup) :
    combine [chainTree (p ++ a), chainTree (p ++ e :: brest)] =
      some (mergedTree p a (e :: brest)) := by
  rw [combine, List.foldlM_cons, mergeOne_chains p a e brest hnd]
  rfl

theorem c2_shared_prefix_merge_witness :
    (keysOf (([("d__Bacteria", "2")] ++ [("s__EColi", "562")]) ++
        [("s__Salmonella", "590")])).Nodup ∧
    combine [chainTree ([("d__Bacteria", "2")] ++ [("s__EColi", "562")]),
        chainTree ([("d__Bacteria", "2")] ++ [("s__Salmonella", "590")])] =
      some (mergedTree [("d__Bacteria", "2")] [("s__EColi", "562")]
        [("s__Salmonella", "590")]) :=
  ⟨by decide, c2_shared_prefix_merge [("d__Bacteria", "2")] [("s__EColi", "562")]
    [] ("s__Salmonella", "590") (by decide)⟩

/-- First sample of the C2 counterexample: domain A, family F, species-group
tip X (id 2). -/
def r1 : List KRow :=
  [⟨"D", "  A", "1", 1⟩, ⟨"F", "    F", "3", 1⟩, ⟨"G", "      X", "2", 1⟩]

/-- Second sample of the C2 counterexample: domain A, species-group tip X
with the fresh id 8. -/
def r2 : List KRow := [⟨"D", "  A", "1", 1⟩, ⟨"G", "    X", "8", 1⟩]

def t1c : TN :=
  .mk none none false
    [.mk (some "d__A") (some 1) false
      [idNodeTN "1" false,
       .mk (some "f__F") (some 1) false
         [idNodeTN "3" false,
          .mk (some "g__X") (some 1) false [idNodeTN "2" true]]]]

def t2c : TN :=
  .mk none none false
    [.mk (some "d__A") (some 1) false
      [idNodeTN "1" false,
       .mk (some "g__X") (some 1) false [idNodeTN "8" true]]]

/-- **C2, counterexample to the literal claim.** The tip with id 8 is a leaf
of the second sample tree, yet the combined tree is the first tree unchanged
and contains no node named 8 at all: id 8 is looked up and missed, and the
walk then finds every ancestor name (A, then X — `find` is global, so the
first tree's X under family F matches) so nothing is ever grafted. The
combined tip set is therefore not the union of the samples' tip sets. -/
theorem c2_counterexample :
    buildTree r1 = some t1c ∧ buildTree r2 = some t2c ∧
    combine [t1c, t2c] = some t1c ∧
    "8" ∈ leafNames t2c ∧ ("8" ∈ allNodeNames t1c → False) :=
  ⟨rfl, rfl, rfl, by decide, by decide⟩

/-! ## `_pad_ranks`: scan characterisation and padding lemmas (C7, C10) -/

/-- A rank entry collected verbatim by the strain scan of `_pad_ranks`. -/
def isStrainEntry (s : String) : Bool :=
  match splitRank s with
  | some (r, _) => isStrainCode r
  | none => false

/-- The final contents of the `available` dict, as an association list whose
first hit is the last write of the reversed scan. -/
def availOf (ranks : List String) : List (String × String) :=
  ranks.filterMap splitRank

/-- The strain entries collected by the first loop, in scan order. -/
def strainsOf (ranks : List String) : List String :=
  ranks.reverse.filter isStrainEntry

theorem scan_fold (l : List (String)) :
    ∀ acc, (∀ s ∈ l, (splitRank s).isSome) →
      l.foldlM scanStep acc =
        some ((l.filterMap splitRank).reverse ++ acc.1, acc.2 ++ l.filter isStrainEntry) := by
  induction l with
  | nil => intro acc _; simp
  | cons s rest ih =>
    intro acc hwf
    rcases hsp : splitRank s with _ | ⟨r, label⟩
    · have := hwf s (by simp)
      rw [hsp] at this
      simp at this
    · have hstep : scanStep acc s =
          some ((r, label) :: acc.1,
            if isStrainCode r then acc.2 ++ [s] else acc.2) := by
        simp [scanStep, hsp]
      rw [List.foldlM_cons, hstep]
      have ihr := ih ((r, label) :: acc.1,
        if isStrainCode r then acc.2 ++ [s] else acc.2)
        (fun x hx => hwf x (by simp [hx]))
      simp only [Option.bind_eq_bind, Option.some_bind] at ihr ⊢
      rw [ihr]
      have hse : isStrainEntry s = isStrainCode r := by
        simp [isStrainEntry, hsp]
      by_cases hsc : isStrainCode r = true
      · simp [hsc, hse, hsp]
      · simp only [Bool.not_eq_true] at hsc
        simp [hsc, hse, hsp]

theorem scan_wf {l : List String} :
    ∀ {acc x}, l.foldlM scanStep acc = some x → ∀ s ∈ l, (splitRank s).isSome := by
  induction l with
  | nil => intro acc x _ s hs; simp at hs
  | cons s rest ih =>
    intro acc x hfold t ht
    rcases hsp : splitRank s with _ | ⟨r, label⟩
    · rw [List.foldlM_cons] at hfold
      simp [scanStep, hsp] at hfold
    · rcases List.mem_cons.1 ht with ht | ht
      · subst ht; simp [hsp]
      · rw [List.foldlM_cons] at hfold
        simp only [scanStep, hsp, Option.bind_eq_bind, Option.some_bind] at hfold
        exact ih hfold t ht

theorem scanRanks_eq {ranks : List String}
    (hwf : ∀ s ∈ ranks, (splitRank s).isSome) :
    scanRanks ranks = some (availOf ranks, strainsOf ranks) := by
  have := scan_fold ranks.reverse ([], []) (fun s hs => hwf s (List.mem_reverse.1 hs))
  rw [scanRanks, this]
  simp [availOf, strainsOf, List.filterMap_reverse]

theorem padStep_extends {avail : List (String × String)}
    {st st2 : List String × Option String} {r : String}
    (h : padStep avail st r = some st2) : ∃ d, st2.1 = st.1 ++ d := by
  rcases hl : avail.lookup r with _ | label
  · simp only [padStep, hl] at h
    by_cases he : st.1.isEmpty
    · simp [he] at h
      exact ⟨[], by simp [← h]⟩
    · simp only [he, if_false] at h
      by_cases hks : (decide (r = "k") &&
          decide (avail.lookup "d" = some "Bacteria" ∨
            avail.lookup "d" = some "Archaea")) = true
      · rw [if_pos hks] at h
        exact ⟨_, by rw [← Option.some_inj.1 h]⟩
      · rw [if_neg hks] at h
        rcases hlg : st.2 with _ | lg
        · rw [hlg] at h; simp at h
        · rw [hlg] at h
          exact ⟨_, by rw [← Option.some_inj.1 h]⟩
  · simp only [padStep, hl] at h
    exact ⟨_, by rw [← Option.some_inj.1 h]⟩

theorem padFold_extends {avail : List (String × String)} (l : List String) :
    ∀ {st st2 : List String × Option String},
      l.foldlM (padStep avail) st = some st2 → ∃ d, st2.1 = st.1 ++ d := by
  induction l with
  | nil => intro st st2 h; exact ⟨[], by simp_all⟩
  | cons r rest ih =>
    intro st st2 h
    rw [List.foldlM_cons] at h
    rcases hs : padStep avail st r with _ | st1
    · rw [hs] at h; simp at h
    · rw [hs] at h
      simp only [Option.bind_eq_bind, Option.some_bind] at h
      rcases padStep_extends hs with ⟨d1, hd1⟩
      rcases ih h with ⟨d2, hd2⟩
      exact ⟨d1 ++ d2, by rw [hd2, hd1, List.append_assoc]⟩

theorem padFold_nonempty {avail : List (String × String)} (l : List String) :
    ∀ {st st2 : List String × Option String},
      l.foldlM (padStep avail) st = some st2 →
      (∃ r ∈ l, (avail.lookup r).isSome) → st2.1 ≠ [] := by
  induction l with
  | nil => intro st st2 _ hr; simp at hr
  | cons r rest ih =>
    intro st st2 h hr
    rw [List.foldlM_cons] at h
    rcases hs : padStep avail st r with _ | st1
    · rw [hs] at h; simp at h
    · rw [hs] at h
      simp only [Option.bind_eq_bind, Option.some_bind] at h
      rcases hr with ⟨x, hx, hxs⟩
      rcases List.mem_cons.1 hx with hx | hx
      · subst hx
        rcases hl : avail.lookup x with _ | label
        · rw [hl] at hxs; simp at hxs
        · have hst1 : st1.1 = st.1 ++ [x ++ "__" ++ label] := by
            simp only [padStep, hl] at hs
            rw [← Option.some_inj.1 hs]
          rcases padFold_extends rest h with ⟨d, hd⟩
          rw [hd, hst1]
          simp
      · exact ih h ⟨x, hx, hxs⟩

theorem padStep_some_lg {avail : List (String × String)}
    {st : List String × Option String} {r : String} (h : st.2.isSome) :
    ∃ st2, padStep avail st r = some st2 ∧ st2.2.isSome := by
  rcases hl : avail.lookup r with _ | label
  · simp only [padStep, hl]
    split_ifs with h1 h2
    · exact ⟨st, rfl, h⟩
    · exact ⟨_, rfl, h⟩
    · rcases hlg : st.2 with _ | lg
      · rw [hlg] at h; simp at h
      · exact ⟨_, rfl, by simp⟩
  · simp only [padStep, hl]
    exact ⟨_, rfl, by simp⟩

theorem padFold_some_lg {avail : List (String × String)} (l : List String) :
    ∀ {st : List String × Option String}, st.2.isSome →
      ∃ st2, l.foldlM (padStep avail) st = some st2 ∧ st2.2.isSome := by
  induction l with
  | nil => intro st h; exact ⟨st, rfl, h⟩
  | cons r rest ih =>
    intro st h
    rcases @padStep_some_lg avail st r h with ⟨st1, hs, h1⟩
    rcases ih h1 with ⟨st2, hf, h2⟩
    exact ⟨st2, by rw [List.foldlM_cons, hs]; simpa using hf, h2⟩

theorem padFold_from_empty {avail : List (String × String)} (l : List String) :
    ∃ st2, l.foldlM (padStep avail) (([], none) : List String × Option String) =
      some st2 := by
  induction l with
  | nil => exact ⟨([], none), rfl⟩
  | cons r rest ih =>
    rcases hl : avail.lookup r with _ | label
    · have hs : padStep avail ([], none) r = some ([], none) := by
        simp [padStep, hl]
      rcases ih with ⟨st2, hf⟩
      exact ⟨st2, by rw [List.foldlM_cons, hs]; simpa using hf⟩
    · have hs : padStep avail ([], none) r =
          some ([r ++ "__" ++ label], some (r ++ "__" ++ label)) := by
        simp [padStep, hl]
      rcases @padFold_some_lg avail rest
          (([r ++ "__" ++ label], some (r ++ "__" ++ label))) (by simp) with
        ⟨st2, hf, _⟩
      exact ⟨st2, by rw [List.foldlM_cons, hs]; simpa using hf⟩

/-- **C10.**  `_pad_ranks` returns a string exactly when it never reaches a
`containing` padding step with `last_good_label` still unbound; with the
fixed scan order this happens precisely unless strain entries were collected
while no single-letter `s` rank is available — then the very first padding
step (`s`) reads the unbound variable and raises `UnboundLocalError`. -/
theorem c10_unbound_local_characterisation (ranks : List String)
    (hwf : ∀ s ∈ ranks, (splitRank s).isSome) :
    (padRanks ranks).isSome ↔
      ¬(strainsOf ranks ≠ [] ∧ (availOf ranks).lookup "s" = none) := by
  have hscan := scanRanks_eq hwf
  constructor
  · intro hsome
    rintro ⟨hne, hs⟩
    rcases hst : strainsOf ranks with _ | ⟨s0, srest⟩
    · exact hne hst
    · have hfirst : padStep (availOf ranks) (strainsOf ranks, none) "s" = none := by
        simp [padStep, hs, hst]
      rw [padRanks, padList, hscan] at hsome
      simp only [Option.some_bind, Option.bind_eq_bind] at hsome
      rw [show ordR = "s" :: ["g", "f", "o", "c", "p", "k", "d"] from rfl,
        List.foldlM_cons, hfirst] at hsome
      simp at hsome
  · intro hno
    rw [padRanks, padList, hscan]
    simp only [Option.bind_eq_bind, Option.some_bind]
    rcases hl : (availOf ranks).lookup "s" with _ | label
    · have hst : strainsOf ranks = [] := by
        by_contra hne
        exact hno ⟨hne, hl⟩
      rw [hst]
      rcases @padFold_from_empty (availOf ranks) ordR with ⟨st2, hf⟩
      simp [hf]
    · have hs : padStep (availOf ranks) (strainsOf ranks, none) "s" =
          some (strainsOf ranks ++ ["s" ++ "__" ++ label],
            some ("s" ++ "__" ++ label)) := by
        simp [padStep, hl]
      rcases @padFold_some_lg (availOf ranks)
          ["g", "f", "o", "c", "p", "k", "d"]
          ((strainsOf ranks ++ ["s" ++ "__" ++ label],
            some ("s" ++ "__" ++ label))) (by simp) with ⟨st2, hf, _⟩
      rw [show ordR = "s" :: ["g", "f", "o", "c", "p", "k", "d"] from rfl,
        List.foldlM_cons, hs]
      simp only [Option.bind_eq_bind, Option.some_bind]
      rw [hf]
      simp

/-- Witness for C10: the single-entry path `['s1__X']` collects a strain,
has no `s` rank, and `_pad_ranks` raises instead of returning. -/
theorem c10_unbound_local_characterisation_witness :
    (padRanks ["s1__X"]).isSome ↔
      ¬(strainsOf ["s1__X"] ≠ [] ∧ (availOf ["s1__X"]).lookup "s" = none) :=
  c10_unbound_local_characterisation ["s1__X"] (by decide)

/-- **C7.**  When the `k` rank is absent, the `d` rank is `Bacteria` or
`Archaea`, and some deeper rank is available (so output has been produced by
the time the scan reaches `k`), the rendered list carries `k__{d's label}`
verbatim in the kingdom slot, right after the domain entry — not a
`containing` placeholder. -/
theorem c7_kingdom_mirrors_domain (ranks : List String) (L : String)
    (l : List String)
    (hk : (availOf ranks).lookup "k" = none)
    (hd : (availOf ranks).lookup "d" = some L)
    (hL : L = "Bacteria" ∨ L = "Archaea")
    (hdeep : ∃ r ∈ ["s", "g", "f", "o", "c", "p"], ((availOf ranks).lookup r).isSome)
    (hok : padList ranks = some l) :
    ∃ rest, l = ("d__" ++ L) :: ("k__" ++ L) :: rest := by
  have hwf : ∀ s ∈ ranks, (splitRank s).isSome := by
    rw [padList] at hok
    rcases hsc : scanRanks ranks with _ | sc
    · rw [hsc] at hok; simp at hok
    · intro s hs
      exact scan_wf hsc s (List.mem_reverse.2 hs)
  rw [padList, scanRanks_eq hwf] at hok
  simp only [Option.bind_eq_bind, Option.some_bind] at hok
  rw [show ordR = ["s", "g", "f", "o", "c", "p"] ++ ["k", "d"] from rfl,
    List.foldlM_append] at hok
  rcases h6 : List.foldlM (padStep (availOf ranks)) (strainsOf ranks, none)
      ["s", "g", "f", "o", "c", "p"] with _ | st6
  · rw [h6] at hok; simp at hok
  · rw [h6] at hok
    simp only [Option.bind_eq_bind, Option.some_bind] at hok
    have hne6 : st6.1 ≠ [] :=
      padFold_nonempty ["s", "g", "f", "o", "c", "p"] h6 hdeep
    have hkstep : padStep (availOf ranks) st6 "k" =
        some (st6.1 ++ ["k__" ++ L], st6.2) := by
      simp only [padStep, hk]
      rw [if_neg (by simpa using hne6), if_pos]
      · rw [hd]; rfl
      · rcases hL with hL | hL <;> simp [hd, hL]
    have hdstep : padStep (availOf ranks) (st6.1 ++ ["k__" ++ L], st6.2) "d" =
        some ((st6.1 ++ ["k__" ++ L]) ++ ["d__" ++ L],
          some ("d__" ++ L)) := by
      simp [padStep, hd]
    rw [List.foldlM_cons, hkstep] at hok
    simp only [Option.bind_eq_bind, Option.some_bind] at hok
    rw [List.foldlM_cons, hdstep] at hok
    simp only [List.foldlM_nil, Option.bind_eq_bind, Option.some_bind,
      Option.pure_def, Option.map_some', Option.some_inj] at hok
    refine ⟨st6.1.reverse, ?_⟩
    rw [← hok]
    simp

/-- Witness for C7: `['d__Bacteria', 'g__Geo']` renders with `k__Bacteria`
directly after the domain entry. -/
theorem c7_kingdom_mirrors_domain_witness :
    ∃ rest,
      ["d__Bacteria", "k__Bacteria", "p__containing g__Geo",
        "c__containing g__Geo", "o__containing g__Geo",
        "f__containing g__Geo", "g__Geo"] =
        ("d__" ++ "Bacteria") :: ("k__" ++ "Bacteria") :: rest :=
  c7_kingdom_mirrors_domain ["d__Bacteria", "g__Geo"] "Bacteria" _
    (by decide) (by decide) (Or.inl rfl) (by decide) rfl

theorem buildTree_two_row_eval :
    buildTree [⟨"D", "  Bacteria", "2", 1⟩, ⟨"S", "    EColi", "562", 1⟩] =
      some (.mk none none false
        [.mk (some "d__Bacteria") (some 1) false
          [idNodeTN "2" false,
           .mk (some "s__EColi") (some 1) false [idNodeTN "562" true]]]) :=
  rfl
